import Mathlib

set_option maxRecDepth 100000

/-!
Shallow embedding of the turborand random-number core (WyRand and ChaCha8
sources, entropy buffer, and the generator-agnostic sampling layer), together
with theorems settling the specification claims.  Machine integers are
modelled as `Nat` (or `Int` for signed values) with explicit reductions
modulo `2 ^ w`; raw generator output is modelled as an explicit list or
stream of already-drawn machine words, so that every definition is
executable.
-/

namespace Turborand

/-! ### Byte and word helpers -/

/-- Decidable equality for `Except`, so that concrete runs of the models
can be checked by `decide`. -/
instance {ε α : Type} [DecidableEq ε] [DecidableEq α] : DecidableEq (Except ε α) := fun a b =>
  match a, b with
  | .error e, .error f => decidable_of_iff (e = f) (by simp)
  | .error _, .ok _ => isFalse (by simp)
  | .ok _, .error _ => isFalse (by simp)
  | .ok x, .ok y => decidable_of_iff (x = y) (by simp)

/-- Byte `i` of the little-endian encoding of a machine integer. -/
def leByte (i v : ℕ) : ℕ := (v / 2 ^ (8 * i)) % 256

/-- Little-endian byte array of a `u64`, as produced by `u64::to_le_bytes`. -/
def leBytes8 (v : ℕ) : List ℕ :=
  [leByte 0 v, leByte 1 v, leByte 2 v, leByte 3 v,
   leByte 4 v, leByte 5 v, leByte 6 v, leByte 7 v]

/-! ### WyRand source (`src/source/wyrand.rs`)

`WyRand::generate`: `state = state.wrapping_add(0xa076_1d64_78bd_642f)`,
`t = u128(state) * u128(state ^ 0xe703_7ed1_a0b4_28db)` (wrapping),
output `((t >> 64) ^ t) as u64`, serialised as little-endian bytes. -/

/-- Additive constant of the WyRand state step. -/
def wyP : ℕ := 0xa0761d6478bd642f

/-- Xor constant of the WyRand output mix. -/
def wyK : ℕ := 0xe7037ed1a0b428db

/-- One `wrapping_add` state update of `WyRand::generate`. -/
def wyNextState (s : ℕ) : ℕ := (s + wyP) % 2 ^ 64

/-- Output mix of `WyRand::generate` applied to the already-updated state:
`t = u128(state) * u128(state ^ K)` (wrapping in `u128`), then
`((t >> 64) ^ t) as u64`. -/
def wyOutput (state : ℕ) : ℕ :=
  ((state * (state ^^^ wyK)) % 2 ^ 128 / 2 ^ 64 ^^^ (state * (state ^^^ wyK)) % 2 ^ 128) % 2 ^ 64

/-- `WyRand::generate`: returns the 8 output bytes and the new state. -/
def wyGenerate (s : ℕ) : List ℕ × ℕ :=
  (leBytes8 (wyOutput (wyNextState s)), wyNextState s)

/-! ### `Rng` seeding (`src/rng.rs`, `src/source/wyrand.rs`)

`Rng::with_seed(seed)` builds `WyRand::with_seed(seed << 1 | 1)`;
`Rng::reseed(seed)` forwards to `WyRand::reseed(seed)`, which is
`self.state.set(seed)`. -/

/-- WyRand state stored by `Rng::with_seed(seed)`: `seed << 1 | 1` in `u64`. -/
def rngWithSeedState (seed : ℕ) : ℕ := seed * 2 % 2 ^ 64 ||| 1

/-- WyRand state stored by `Rng::reseed(seed)`: the seed itself
(`WyRand::reseed` is `self.state.set(seed)` with no transformation). -/
def rngReseedState (seed : ℕ) : ℕ := seed

/-! ### `TurboRand::chance` (`src/traits.rs`)

`chance(rate)` asserts `0.0 <= rate <= 1.0`, computes
`rate_int = (rate * SCALE) as u64` with `SCALE = 2.0 * (1u64 << 63) as f64
= 2^64`, then returns `true` for `rate_int == u64::MAX`, `false` for `0`,
and otherwise draws one `u64` and compares.  The `f64` rate is modelled as a
rational number: every `f64` in `[0, 1]` is a rational, and multiplying an
`f64` in `[0, 1]` by the power of two `2^64` is exact in IEEE arithmetic,
so exact rational arithmetic agrees with the source on every representable
rate (all concrete rates used below are exactly representable). -/

/-- Saturating `as u64` cast of a nonnegative `f64` value (truncates toward
zero, clamping to `u64::MAX`). -/
def satCastU64 (q : ℚ) : ℕ := min (max (⌊q⌋) 0).toNat (2 ^ 64 - 1)

/-- Model of `TurboRand::chance`: given the rate and the stream of raw `u64`
draws, returns `Except.error ()` on the rate assertion failing, else the
boolean result paired with how many raw `u64` values were consumed. -/
def chanceModel (rate : ℚ) (gen : ℕ → ℕ) : Except Unit (Bool × ℕ) :=
  if 0 ≤ rate ∧ rate ≤ 1 then
    let rateInt := satCastU64 (rate * 2 ^ 64)
    if rateInt = 2 ^ 64 - 1 then .ok (true, 0)
    else if rateInt = 0 then .ok (false, 0)
    else .ok (decide (gen 0 < rateInt), 1)
  else .error ()

/-! ### Entropy buffer (`src/buffer.rs`)

`EntropyBuffer<SIZE>` caches one generated block (`Option<[u8; SIZE]>`)
plus a cursor.  `fill` copies `min(output.len(), remaining)` bytes from
`buffer[cursor..]` and advances the cursor; `fill_bytes_with_source` loops:
refill from the source closure whenever empty, copy a chunk, repeat until
the output is full.  The source closure is modelled as a state machine
`σ → List ℕ × σ` emitting one block per invocation. -/

/-- State of `EntropyBuffer<SIZE>`: `buffer: Option<[u8; SIZE]>` and
`cursor: usize`. -/
structure EBuf where
  buffer : Option (List ℕ)
  cursor : ℕ
  deriving Repr, DecidableEq

/-- `EntropyBuffer::new()`: no stored block, cursor `0`. -/
def ebNew : EBuf := { buffer := none, cursor := 0 }

/-- `EntropyBuffer::is_empty`: a missing block counts as empty, a stored
block is empty when the cursor has reached its length. -/
def ebIsEmpty (eb : EBuf) : Bool :=
  match eb.buffer with
  | some b => b.length = eb.cursor
  | none => true

/-- `EntropyBuffer::remaining_buffer`: bytes still available. -/
def ebRemaining (eb : EBuf) : ℕ :=
  match eb.buffer with
  | some b => b.length - eb.cursor
  | none => 0

/-- `EntropyBuffer::reset_buffer`: replace the whole block, cursor `0`. -/
def ebReset (eb : EBuf) (blk : List ℕ) : EBuf :=
  { eb with buffer := some blk, cursor := 0 }

/-- `EntropyBuffer::fill`: copies `min(output.len(), remaining)` bytes from
`buffer[cursor..]`, advancing the cursor; `None` when no block is stored.
Returns the copied bytes (the output prefix that got overwritten) and the
advanced buffer. -/
def ebFill (eb : EBuf) (n : ℕ) : Option (List ℕ × EBuf) :=
  eb.buffer.map fun b =>
    let length := min n (ebRemaining eb)
    ((b.drop eb.cursor).take length, { eb with cursor := eb.cursor + length })

/-- Loop body of `EntropyBuffer::fill_bytes_with_source`, with `n` the
number of output bytes still to fill.  One unit of fuel per loop iteration;
since every iteration after a refill copies at least one byte (for nonempty
blocks), fuel `n` is enough, and the wrapper below passes exactly that.
The `none` arm of the inner `match` mirrors the `unwrap` in the source and
is unreachable after the refill check. -/
def ebFillGo {σ : Type} (src : σ → List ℕ × σ) :
    ℕ → EBuf → σ → ℕ → List ℕ × EBuf × σ
  | 0, eb, s, _ => ([], eb, s)
  | fuel + 1, eb, s, n =>
    if n = 0 then ([], eb, s)
    else
      let refilled : EBuf × σ :=
        if ebIsEmpty eb then
          let bs := src s
          (ebReset eb bs.1, bs.2)
        else (eb, s)
      match ebFill refilled.1 n with
      | none => ([], refilled.1, refilled.2)
      | some (chunk, eb₂) =>
        let rest := ebFillGo src fuel eb₂ refilled.2 (n - chunk.length)
        (chunk ++ rest.1, rest.2)

/-- `EntropyBuffer::fill_bytes_with_source` for an `n`-byte output: returns
the bytes written, the final buffer and the final source state. -/
def ebFillBytes {σ : Type} (src : σ → List ℕ × σ) (eb : EBuf) (s : σ) (n : ℕ) :
    List ℕ × EBuf × σ :=
  ebFillGo src n eb s n

/-- Runs `fill_bytes_with_source` once per entry of `ns`, threading the
buffer and source state, and concatenates the outputs. -/
def ebFillMany {σ : Type} (src : σ → List ℕ × σ) (eb : EBuf) (s : σ) :
    List ℕ → List ℕ × EBuf × σ
  | [] => ([], eb, s)
  | n :: ns =>
    let first := ebFillBytes src eb s n
    let rest := ebFillMany src first.2.1 first.2.2 ns
    (first.1 ++ rest.1, rest.2)

/-! ### ChaCha8 source (`src/source/chacha.rs`) -/

/-- ChaCha `add_xor_rotate::<A, B, C, LEFT>` on a 16-word state (words are
`u32`, the rotation is `rotate_left`). -/
def axr (a b c left : ℕ) (st : List ℕ) : List ℕ :=
  let st₁ := st.set a ((st.getD a 0 + st.getD b 0) % 2 ^ 32)
  let st₂ := st₁.set c (st₁.getD c 0 ^^^ st₁.getD a 0)
  st₂.set c (st₂.getD c 0 % 2 ^ 32 * 2 ^ left % 2 ^ 32 ||| st₂.getD c 0 % 2 ^ 32 / 2 ^ (32 - left))

/-- ChaCha `quarter_round::<A, B, C, D>`: rotations 16, 12, 8, 7. -/
def quarterRound (a b c d : ℕ) (st : List ℕ) : List ℕ :=
  axr c d b 7 (axr a b d 8 (axr c d b 12 (axr a b d 16 st)))

/-- One loop iteration of `calculate_block`: the four odd-round quarter
rounds followed by the four even-round quarter rounds. -/
def doubleRound (st : List ℕ) : List ℕ :=
  quarterRound 3 4 9 14 (quarterRound 2 7 8 13 (quarterRound 1 6 11 12 (quarterRound 0 5 10 15
    (quarterRound 3 7 11 15 (quarterRound 2 6 10 14 (quarterRound 1 5 9 13
      (quarterRound 0 4 8 12 st)))))))

/-- `calculate_block::<DOUBLE_ROUNDS>`: iterate the round loop, then add the
original state word-wise (mod `2^32`, the feed-forward). -/
def calculateBlock (doubleRounds : ℕ) (st : List ℕ) : List ℕ :=
  (doubleRound^[doubleRounds] st).zipWith (fun a b => (a + b) % 2 ^ 32) st

/-- The 64-bit counter packed across words 12 (low) and 13 (high):
`(state[13] << 32) | state[12]`. -/
def ccCounter (st : List ℕ) : ℕ := st.getD 13 0 * 2 ^ 32 + st.getD 12 0

/-- `increment_counter`: `counter.checked_add(1)` is `None` exactly on
`u64` overflow; otherwise write the incremented counter back into words 12
and 13. -/
def incrementCounter (st : List ℕ) : Option (List ℕ) :=
  if ccCounter st = 2 ^ 64 - 1 then none
  else
    some ((st.set 12 ((ccCounter st + 1) % 2 ^ 32)).set 13
      ((ccCounter st + 1) / 2 ^ 32 % 2 ^ 32))

/-- `pack_into_u32`: little-endian packing of 4 bytes. -/
def pack4 (bs : List ℕ) : ℕ :=
  bs.getD 0 0 ||| bs.getD 1 0 * 2 ^ 8 ||| bs.getD 2 0 * 2 ^ 16 ||| bs.getD 3 0 * 2 ^ 24

/-- Bytes of the `b"expand 32-byte k"` ChaCha constant. -/
def ccConstBytes : List ℕ :=
  [101, 120, 112, 97, 110, 100, 32, 51, 50, 45, 98, 121, 116, 101, 32, 107]

/-- `init_state(seed)`: 4 constant words, 8 key words from seed bytes
0..32, a zeroed 64-bit counter in words 12 and 13, and 2 nonce words from
seed bytes 32..40. -/
def initState (seed : List ℕ) : List ℕ :=
  [pack4 (ccConstBytes.take 4), pack4 ((ccConstBytes.drop 4).take 4),
   pack4 ((ccConstBytes.drop 8).take 4), pack4 (ccConstBytes.drop 12),
   pack4 (seed.take 4), pack4 ((seed.drop 4).take 4),
   pack4 ((seed.drop 8).take 4), pack4 ((seed.drop 12).take 4),
   pack4 ((seed.drop 16).take 4), pack4 ((seed.drop 20).take 4),
   pack4 ((seed.drop 24).take 4), pack4 ((seed.drop 28).take 4),
   0, 0,
   pack4 ((seed.drop 32).take 4), pack4 ((seed.drop 36).take 4)]

/-- The ChaCha8 generator: 16-word state plus the entropy cache. -/
structure ChaCha where
  state : List ℕ
  cache : EBuf
  deriving Repr, DecidableEq

/-- Modelled from the spec: `EntropyBuffer::empty_buffer` (invoked by
`ChaCha8::reseed`, not present in `src/buffer.rs`) resets the cache to its
created-empty state, clearing any stored entropy. -/
def ebEmptyBuffer (_eb : EBuf) : EBuf := ebNew

/-- `ChaCha8::reseed`: replace the state with `init_state(seed)` and empty
the entropy cache. -/
def ccReseed (seed : List ℕ) (c : ChaCha) : ChaCha :=
  { state := initState seed, cache := ebEmptyBuffer c.cache }

/-- The 64 output bytes of a block: each word serialised to 4 bytes
(little-endian on the platforms the crate targets). -/
def ccBlockBytes (ws : List ℕ) : List ℕ :=
  ws.flatMap fun w => [leByte 0 w, leByte 1 w, leByte 2 w, leByte 3 w]

/-- `ChaCha8::generate`: run `calculate_block::<4>`, output its bytes, then
either store the incremented-counter state or — on counter overflow —
reseed from fresh entropy (the `fresh` argument stands for the
`generate_entropy::<40>()` draw, an external input). -/
def ccGenerate (fresh : List ℕ) (c : ChaCha) : List ℕ × ChaCha :=
  let newState := calculateBlock 4 c.state
  let output := ccBlockBytes newState
  match incrementCounter newState with
  | none => (output, ccReseed fresh c)
  | some updated => (output, { c with state := updated })

/-! ### Bounded-range integer sampling (`src/methods.rs` `trait_range_int`,
`src/traits.rs` `u128`/`i128`)

Raw generator output is a list of already-drawn machine words (`< 2^W`);
the rejection loop consumes them in order.  `Except.error ()` models the
`assert!` panic; `Option.none` models exhausting the supplied raw list
(the source draws from an endless generator instead). -/

/-- A `core::ops::Bound<$value>` for an unsigned width. -/
inductive RBound where
  | included (n : ℕ)
  | excluded (n : ℕ)
  | unbounded
  deriving Repr, DecidableEq

/-- A `core::ops::Bound<$value>` for a signed width. -/
inductive RBoundZ where
  | included (x : ℤ)
  | excluded (x : ℤ)
  | unbounded
  deriving Repr, DecidableEq

/-- Lower-bound resolution of the unsigned samplers: `Included` as is,
`Excluded` via `saturating_add(1)`, `Unbounded` as `MIN = 0`. -/
def resolveLowerU (W : ℕ) : RBound → ℕ
  | .included n => n
  | .excluded n => min (n + 1) (2 ^ W - 1)
  | .unbounded => 0

/-- Upper-bound resolution of the unsigned samplers: `Included` as is,
`Excluded` via `saturating_sub(1)` (`Nat` subtraction saturates at 0),
`Unbounded` as `MAX`. -/
def resolveUpperU (W : ℕ) : RBound → ℕ
  | .included n => n
  | .excluded n => n - 1
  | .unbounded => 2 ^ W - 1

/-- Lower-bound resolution of the signed samplers. -/
def resolveLowerZ (W : ℕ) : RBoundZ → ℤ
  | .included x => x
  | .excluded x => min (x + 1) (2 ^ (W - 1) - 1)
  | .unbounded => -(2 ^ (W - 1))

/-- Upper-bound resolution of the signed samplers. -/
def resolveUpperZ (W : ℕ) : RBoundZ → ℤ
  | .included x => x
  | .excluded x => max (x - 1) (-(2 ^ (W - 1)))
  | .unbounded => 2 ^ (W - 1) - 1

/-- `wrapping_sub` on `W`-bit unsigned values. -/
def wsub (W a b : ℕ) : ℕ := (a + 2 ^ W - b) % 2 ^ W

/-- The value count `upper.wrapping_sub(lower).wrapping_add(1)` of a
resolved unsigned bound pair. -/
def rangeOfU (W lower upper : ℕ) : ℕ := (wsub W upper lower + 1) % 2 ^ W

/-- The rejection threshold `range.wrapping_neg() % range` of the Lemire
sampler. -/
def lemireThreshold (W range : ℕ) : ℕ := (2 ^ W - range) % 2 ^ W % range

/-- The `while low < threshold` regeneration loop of `trait_range_int`:
keep drawing until the low half of `generated * range` reaches the
threshold, then return the high half (`high >> BITS`) and the unconsumed
raws. -/
def lemireLoop (W range t : ℕ) : List ℕ → Option (ℕ × List ℕ)
  | [] => none
  | r :: rest =>
    if r * range % 2 ^ W < t then lemireLoop W range t rest
    else some (r * range / 2 ^ W, rest)

/-- The full rejection step of `trait_range_int`: first draw, the
`if low < range` fast acceptance test, then the threshold loop. -/
def lemireSample (W range : ℕ) : List ℕ → Option (ℕ × List ℕ)
  | [] => none
  | r :: rest =>
    if r * range % 2 ^ W < range then
      if r * range % 2 ^ W < lemireThreshold W range then
        lemireLoop W range (lemireThreshold W range) rest
      else some (r * range / 2 ^ W, rest)
    else some (r * range / 2 ^ W, rest)

/-- Unsigned `trait_range_int` sampler of width `W` (`u8`, `u16`, `u32`,
`u64` instantiate the macro): resolve the bounds, assert
`lower <= upper` (`Except.error ()` on failure), take the full-width fast
path, otherwise run the Lemire rejection step and shift by `lower`
(`lower.wrapping_add(value)`). -/
def rangeSampleU (W : ℕ) (lo hi : RBound) (raws : List ℕ) :
    Except Unit (Option (ℕ × List ℕ)) :=
  let lower := resolveLowerU W lo
  let upper := resolveUpperU W hi
  if lower ≤ upper then
    .ok
      (if lower = 0 ∧ upper = 2 ^ W - 1 then
        match raws with
        | [] => none
        | r :: rest => some (r, rest)
      else
        (lemireSample W (rangeOfU W lower upper) raws).map
          fun vr => ((lower + vr.1) % 2 ^ W, vr.2))
  else .error ()

/-- Reinterpretation of a `W`-bit unsigned value as the signed value with
the same bit pattern (the `as $value` cast). -/
def toSignedZ (W : ℕ) (v : ℕ) : ℤ := if v < 2 ^ (W - 1) then (v : ℤ) else (v : ℤ) - 2 ^ W

/-- Reinterpretation of a signed value as its `W`-bit pattern (the
`as $unsigned` cast). -/
def toUnsignedZ (W : ℕ) (x : ℤ) : ℕ := (x % 2 ^ W).toNat

/-- Reduction of an integer into the signed `W`-bit range (the result of
`wrapping` signed arithmetic). -/
def wrapZ (W : ℕ) (x : ℤ) : ℤ := toSignedZ W (toUnsignedZ W x)

/-- Signed `trait_range_int` sampler of width `W` (`i8`, `i16`, `i32`,
`i64`): identical to the unsigned one after reinterpreting raws as
unsigned; the range is `upper.wrapping_sub(lower).wrapping_add(1) as
$unsigned` and the result is `lower.wrapping_add(high >> BITS as $value)`. -/
def rangeSampleZ (W : ℕ) (lo hi : RBoundZ) (raws : List ℕ) :
    Except Unit (Option (ℤ × List ℕ)) :=
  let lower := resolveLowerZ W lo
  let upper := resolveUpperZ W hi
  if lower ≤ upper then
    .ok
      (if lower = -(2 ^ (W - 1)) ∧ upper = 2 ^ (W - 1) - 1 then
        match raws with
        | [] => none
        | r :: rest => some (toSignedZ W r, rest)
      else
        (lemireSample W (toUnsignedZ W (upper - lower + 1)) raws).map
          fun vr => (wrapZ W (lower + toSignedZ W vr.1), vr.2))
  else .error ()

/-- `multiply_high_u128`: computes `(a * b) >> 128` by 64-bit limb
decomposition and carry propagation (`src/traits.rs`). -/
def multiplyHighU128 (a b : ℕ) : ℕ :=
  let aLow := a % 2 ^ 64
  let aHigh := a / 2 ^ 64 % 2 ^ 64
  let bLow := b % 2 ^ 64
  let bHigh := b / 2 ^ 64 % 2 ^ 64
  let carry := aLow * bLow / 2 ^ 64
  let carry2 := (aHigh * bLow % 2 ^ 64 + aLow * bHigh % 2 ^ 64 + carry) / 2 ^ 64
  aHigh * bHigh + aHigh * bLow / 2 ^ 64 + aLow * bHigh / 2 ^ 64 + carry2

/-- The `while low < t` loop of `TurboRand::u128`: the high half comes from
`multiply_high_u128`, the low half from `value.wrapping_mul(range)`. -/
def lemireLoop128 (range t : ℕ) : List ℕ → Option (ℕ × List ℕ)
  | [] => none
  | r :: rest =>
    if r * range % 2 ^ 128 < t then lemireLoop128 range t rest
    else some (multiplyHighU128 r range, rest)

/-- The rejection step of `TurboRand::u128`. -/
def lemireSample128 (range : ℕ) : List ℕ → Option (ℕ × List ℕ)
  | [] => none
  | r :: rest =>
    if r * range % 2 ^ 128 < range then
      if r * range % 2 ^ 128 < lemireThreshold 128 range then
        lemireLoop128 range (lemireThreshold 128 range) rest
      else some (multiplyHighU128 r range, rest)
    else some (multiplyHighU128 r range, rest)

/-- `TurboRand::u128`: as the macro samplers, but with the hand-rolled
double-width multiply and result `lower.wrapping_add(high)`. -/
def rangeSampleU128 (lo hi : RBound) (raws : List ℕ) :
    Except Unit (Option (ℕ × List ℕ)) :=
  let lower := resolveLowerU 128 lo
  let upper := resolveUpperU 128 hi
  if lower ≤ upper then
    .ok
      (if lower = 0 ∧ upper = 2 ^ 128 - 1 then
        match raws with
        | [] => none
        | r :: rest => some (r, rest)
      else
        (lemireSample128 (rangeOfU 128 lower upper) raws).map
          fun vr => ((lower + vr.1) % 2 ^ 128, vr.2))
  else .error ()

/-- `TurboRand::i128`: the signed variant of `u128`, with result
`lower.wrapping_add(high as i128)`. -/
def rangeSampleZ128 (lo hi : RBoundZ) (raws : List ℕ) :
    Except Unit (Option (ℤ × List ℕ)) :=
  let lower := resolveLowerZ 128 lo
  let upper := resolveUpperZ 128 hi
  if lower ≤ upper then
    .ok
      (if lower = -(2 ^ 127) ∧ upper = 2 ^ 127 - 1 then
        match raws with
        | [] => none
        | r :: rest => some (toSignedZ 128 r, rest)
      else
        (lemireSample128 (toUnsignedZ 128 (upper - lower + 1)) raws).map
          fun vr => (wrapZ 128 (lower + toSignedZ 128 vr.1), vr.2))
  else .error ()

/-! ### Character sampling (`TurboRand::char`, `src/traits.rs`) -/

/-- Start of the UTF-16 surrogate block (`SURROGATE_START`). -/
def surrStart : ℕ := 0xd800

/-- Width of the UTF-16 surrogate block (`SURROGATE_LENGTH`). -/
def surrLen : ℕ := 0x800

/-- Validity test of `char::from_u32`: at most `char::MAX` and outside the
surrogate block. -/
def isValidScalar (n : ℕ) : Bool :=
  decide (n < 0x110000) && !(decide (surrStart ≤ n) && decide (n < surrStart + surrLen))

/-- Lower character bound resolution of `TurboRand::char`: an exclusive
bound just below the surrogate block jumps past it; `char::from_u32`'s
`expect` failing is a panic, modelled as `none`. -/
def resolveCharLower : RBound → Option ℕ
  | .unbounded => some 0
  | .included x => some x
  | .excluded x =>
    let scalar := if x = surrStart - 1 then surrStart + surrLen else x + 1
    if isValidScalar scalar then some scalar else none

/-- Upper character bound resolution of `TurboRand::char`: an exclusive
bound at the end of the surrogate block jumps below it; the subtraction is
`u32` wrapping. -/
def resolveCharUpper : RBound → Option ℕ
  | .unbounded => some 0x10FFFF
  | .included x => some x
  | .excluded x =>
    let scalar := if x = surrStart + surrLen then surrStart - 1 else (x + 2 ^ 32 - 1) % 2 ^ 32
    if isValidScalar scalar then some scalar else none

/-- `TurboRand::char`: resolve the bounds, assert `upper >= lower`,
compress the surrogate gap out of the range, sample via the `u32`
sampler, and re-add the gap above the surrogate start. -/
def charSample (lo hi : RBound) (raws : List ℕ) : Except Unit (Option ℕ) :=
  match resolveCharLower lo, resolveCharUpper hi with
  | some lower, some upper =>
    if lower ≤ upper then
      let gap := if lower < surrStart ∧ surrStart ≤ upper then surrLen else 0
      let range := upper - gap
      match rangeSampleU 32 (.included lower) (.included range) raws with
      | .error () => .error ()
      | .ok none => .ok none
      | .ok (some (v, _)) =>
        let val := if surrStart ≤ v then v + gap else v
        if isValidScalar val then .ok (some val) else .error ()
    else .error ()
  | _, _ => .error ()

/-- Satisfaction of the caller-supplied lower character bound. -/
def charLowerSat (lo : RBound) (c : ℕ) : Prop :=
  match lo with
  | .included x => x ≤ c
  | .excluded x => x < c
  | .unbounded => True

/-- Satisfaction of the caller-supplied upper character bound. -/
def charUpperSat (hi : RBound) (c : ℕ) : Prop :=
  match hi with
  | .included x => c ≤ x
  | .excluded x => c < x
  | .unbounded => True

/-- Membership of a scalar in the caller-supplied character range. -/
def charInBounds (lo hi : RBound) (c : ℕ) : Prop := charLowerSat lo c ∧ charUpperSat hi c

/-- Well-formed character bound: its endpoint is a `char`, so a valid
scalar. -/
def charBoundWF : RBound → Prop
  | .included x => isValidScalar x = true
  | .excluded x => isValidScalar x = true
  | .unbounded => True

/-! ### Shuffling (`TurboRand::shuffle` / `partial_shuffle`,
`src/traits.rs`; `src/internal/uniform.rs`) -/

/-- The `GenCore::GEN_KIND` speed class. -/
inductive TurboKind where
  | FAST
  | SLOW
  deriving Repr, DecidableEq

/-- `slice.swap(i, j)` (in range for every use below). -/
def listSwap {α : Type} (xs : List α) (i j : ℕ) : List α :=
  match xs[i]?, xs[j]? with
  | some a, some b => (xs.set i b).set j a
  | _, _ => xs

/-- The naive Fisher-Yates loop of the `TurboKind::FAST` arm:
`((n.max(1))..len).rev().for_each(|index| slice.swap(index,
self.index(..=index)))`, with `stop = n.max(1)` and `k` indices left to
process; `index(..=i)` resolves to the `u64` sampler over `0..=i`.
`none` propagates an exhausted raw list. -/
def fyGo (stop : ℕ) : ℕ → List ℕ → List ℕ → Option (List ℕ × List ℕ)
  | 0, xs, raws => some (xs, raws)
  | k + 1, xs, raws =>
    match rangeSampleU 64 (.included 0) (.included (stop + k)) raws with
    | .error () => none
    | .ok none => none
    | .ok (some (j, rest)) => fyGo stop k (listSwap xs (stop + k) j) rest

/-- The `checked_mul` loop of `calculate_bound_u64`.  Fuel 64 suffices:
the product at least doubles each iteration, so `checked_mul` fails within
64 steps for every `min ≥ 1` (the function is only invoked with
`min = n + 1 ≥ 1`). -/
def calcBoundGo : ℕ → ℕ → ℕ → ℕ × ℕ
  | 0, product, current => (product, current)
  | fuel + 1, product, current =>
    if product * current < 2 ^ 64 then calcBoundGo fuel (product * current) (current + 1)
    else (product, current)

/-- `calculate_bound_u64(min)`: the largest product
`min * (min+1) * ... * (min+count-1)` that fits a `u64`, with `count`. -/
def calculateBoundU64 (mn : ℕ) : ℕ × ℕ :=
  let pc := calcBoundGo 64 mn (mn + 1)
  (pc.1, pc.2 - mn)

/-- State of `IncreasingUniformIter` (the generator itself is threaded
separately as the raw list). -/
structure IUState where
  n : ℕ
  chunk : ℕ
  chunkRemaining : ℕ
  len : ℕ
  deriving Repr, DecidableEq

/-- `IncreasingUniformIter::new(rng, n, len)`. -/
def iuNew (n len : ℕ) : IUState :=
  { n := n, chunk := 0, chunkRemaining := if n = 0 then 1 else 0, len := len }

/-- `IncreasingUniformIter::next_swap_index`: on an exhausted chunk draw a
fresh one via `rng.u64(..bound)`, then peel one swap index off the chunk by
division and modulus against `n + 1`. -/
def iuNextSwapIndex (st : IUState) (raws : List ℕ) : Option (ℕ × IUState × List ℕ) :=
  let nextN := st.n + 1
  let drawn : Option (ℕ × ℕ × List ℕ) :=
    match st.chunkRemaining with
    | 0 =>
      match rangeSampleU 64 .unbounded (.excluded (calculateBoundU64 nextN).1) raws with
      | .ok (some (c, rest)) => some (c, (calculateBoundU64 nextN).2 - 1, rest)
      | _ => none
    | k + 1 => some (st.chunk, k, raws)
  match drawn with
  | none => none
  | some (chunk, ncr, rest) =>
    if ncr = 0 then
      some (chunk, { st with n := nextN, chunk := chunk, chunkRemaining := ncr }, rest)
    else
      some (chunk % nextN,
        { st with n := nextN, chunk := chunk / nextN, chunkRemaining := ncr }, rest)

/-- The `TurboKind::SLOW` arm of `partial_shuffle`: drive the iterator,
swapping `slice.swap(current_index, swap_index)` until `n` reaches `len`
(the iterator yields exactly `len - n` items, the fuel). -/
def iuGo : ℕ → IUState → List ℕ → List ℕ → Option (List ℕ × List ℕ)
  | 0, _, xs, raws => some (xs, raws)
  | fuel + 1, st, xs, raws =>
    if st.len = st.n then some (xs, raws)
    else
      match iuNextSwapIndex st raws with
      | none => none
      | some (j, st₂, rest) => iuGo fuel st₂ (listSwap xs st.n j) rest

/-- `TurboRand::partial_shuffle(slice, amount)`: asserts `len > 1`
(`Except.error ()` on failure), computes the split point
`n = len.saturating_sub(amount)`, shuffles the tail by the strategy of the
generator kind, and returns `(shuffled_part, rest)` — the two halves of
`split_at_mut(n)` in swapped order — plus the unconsumed raws. -/
def partialShuffle (kind : TurboKind) (xs : List ℕ) (amount : ℕ) (raws : List ℕ) :
    Except Unit (Option ((List ℕ × List ℕ) × List ℕ)) :=
  let len := xs.length
  if len > 1 then
    let n := len - amount
    .ok
      (match kind with
      | .FAST =>
        (fyGo (max n 1) (len - max n 1) xs raws).map fun xr =>
          ((xr.1.drop n, xr.1.take n), xr.2)
      | .SLOW =>
        (iuGo (len - n) (iuNew n len) xs raws).map fun xr =>
          ((xr.1.drop n, xr.1.take n), xr.2))
  else .error ()

/-- `TurboRand::shuffle(slice)`: slices of fewer than two elements are left
untouched; otherwise delegate to `partial_shuffle(slice, len)` and keep the
whole (shuffled) slice. -/
def shuffle (kind : TurboKind) (xs : List ℕ) (raws : List ℕ) :
    Except Unit (Option (List ℕ × List ℕ)) :=
  if xs.length < 2 then .ok (some (xs, raws))
  else
    match partialShuffle kind xs xs.length raws with
    | .error () => .error ()
    | .ok none => .ok none
    | .ok (some (parts, rs)) => .ok (some (parts.2 ++ parts.1, rs))

/-! ### `WyRand::fill` (`src/source/wyrand.rs`)

The chunk count is `(output.len() as f32 / size_of::<u64>() as f32).ceil()
as usize`.  The `usize → f32` conversion rounds to nearest, ties to even
(24-bit significand); dividing an f32 by 8 only shifts the exponent and
`ceil` is exact, so the whole expression equals `⌈roundF32 L / 8⌉` in exact
arithmetic. -/

/-- Fuelled base-2 logarithm; structurally recursive so that the kernel
can evaluate it (agrees with `Nat.log2` whenever `n ≤ fuel`). -/
def flog2 : ℕ → ℕ → ℕ
  | 0, _ => 0
  | fuel + 1, n => if 2 ≤ n then flog2 fuel (n / 2) + 1 else 0

/-- Round a natural number to the nearest f32-representable value (24
significant bits, ties to even); the identity below `2^24`. -/
def roundF32 (L : ℕ) : ℕ :=
  if flog2 L L < 24 then L
  else
    let e := flog2 L L - 23
    let q := L / 2 ^ e
    let r := L % 2 ^ e
    if 2 * r < 2 ^ e then q * 2 ^ e
    else if 2 ^ e < 2 * r then (q + 1) * 2 ^ e
    else if q % 2 = 0 then q * 2 ^ e else (q + 1) * 2 ^ e

/-- The iteration count `remaining` of `WyRand::fill`:
`(L as f32 / 8.0).ceil() as usize`. -/
def wyFillChunks (L : ℕ) : ℕ := (roundF32 L + 7) / 8

/-- The copy loop of `WyRand::fill`: `remaining` times, generate 8 bytes
and copy `min(output.len(), 8)` of them into the front of the output.
Returns the final buffer contents and generator state. -/
def wyFillLoop : ℕ → ℕ → List ℕ → List ℕ × ℕ
  | 0, s, buf => (buf, s)
  | count + 1, s, buf =>
    let g := wyGenerate s
    let fill := min buf.length 8
    let rest := wyFillLoop count g.2 (buf.drop fill)
    (g.1.take fill ++ rest.1, rest.2)

/-- `WyRand::fill` on a buffer with the given starting contents. -/
def wyFill (s : ℕ) (buf : List ℕ) : List ℕ × ℕ :=
  wyFillLoop (wyFillChunks buf.length) s buf

/-- Concatenation of the outputs of `count` successive `generate()` calls
(the keystream the specification describes). -/
def ksFlat (s : ℕ) : ℕ → List ℕ
  | 0 => []
  | n + 1 => (wyGenerate s).1 ++ ksFlat (wyGenerate s).2 n

/-- The WyRand state after `k` `generate()` calls (before the output mix of
call `k + 1`). -/
def wyStateAt (s : ℕ) : ℕ → ℕ
  | 0 => s
  | k + 1 => wyNextState (wyStateAt s k)

/-! ### Byte-level reformulation of the entropy buffer loop

Proof device for relating differently-chunked runs of
`fill_bytes_with_source`: serving one byte at a time (refill when empty,
read the byte under the cursor, advance) visits exactly the same bytes as
the chunked loop. -/

/-- Buffer well-formedness: any stored block has the buffer's block size
and the cursor does not run past it. -/
def ebWF (SIZE : ℕ) (eb : EBuf) : Prop :=
  ∀ b, eb.buffer = some b → b.length = SIZE ∧ eb.cursor ≤ SIZE

/-- Serve a single byte: refill from the source when the buffer is empty,
then emit the byte under the cursor and advance it. -/
def ebByteStep {σ : Type} (src : σ → List ℕ × σ) (st : EBuf × σ) : ℕ × EBuf × σ :=
  let st₁ : EBuf × σ :=
    if ebIsEmpty st.1 then
      let bs := src st.2
      (ebReset st.1 bs.1, bs.2)
    else st
  match st₁.1.buffer with
  | none => (0, st₁)
  | some b => (b.getD st₁.1.cursor 0, { st₁.1 with cursor := st₁.1.cursor + 1 }, st₁.2)

/-- Serve `n` bytes one at a time. -/
def ebByteRun {σ : Type} (src : σ → List ℕ × σ) : ℕ → EBuf × σ → List ℕ × EBuf × σ
  | 0, st => ([], st)
  | n + 1, st =>
    let step := ebByteStep src st
    let rest := ebByteRun src n step.2
    (step.1 :: rest.1, rest.2)

/-! ## Shared lemmas -/

theorem axr_length (a b c l : ℕ) (st : List ℕ) : (axr a b c l st).length = st.length := by
  simp [axr]

theorem quarterRound_length (a b c d : ℕ) (st : List ℕ) :
    (quarterRound a b c d st).length = st.length := by
  simp [quarterRound, axr_length]

theorem doubleRound_iterate_length (n : ℕ) (st : List ℕ) :
    (doubleRound^[n] st).length = st.length := by
  induction n generalizing st with
  | zero => simp
  | succ n ih =>
    rw [Function.iterate_succ_apply, ih]
    simp [doubleRound, quarterRound_length]

theorem calculateBlock_length (n : ℕ) (st : List ℕ) :
    (calculateBlock n st).length = st.length := by
  simp [calculateBlock, doubleRound_iterate_length]

theorem calculateBlock_getD_lt (n i : ℕ) (st : List ℕ) (h : i < st.length) :
    (calculateBlock n st).getD i 0 < 2 ^ 32 := by
  have hlen : (calculateBlock n st).length = st.length := calculateBlock_length n st
  rw [List.getD_eq_getElem?_getD, List.getElem?_eq_getElem (hlen ▸ h)]
  simp only [calculateBlock, List.getElem_zipWith, Option.getD_some]
  exact Nat.mod_lt _ (by norm_num)

theorem incrementCounter_spec (st u : List ℕ) (h : incrementCounter st = some u)
    (h12 : st.getD 12 0 < 2 ^ 32) (h13 : st.getD 13 0 < 2 ^ 32) (hl : st.length = 16) :
    ccCounter u = ccCounter st + 1 ∧ ∀ i, i ≠ 12 → i ≠ 13 → u.getD i 0 = st.getD i 0 := by
  unfold incrementCounter at h
  split at h
  · exact absurd h (by simp)
  · rename_i hne
    have hu : u = (st.set 12 ((ccCounter st + 1) % 2 ^ 32)).set 13
        ((ccCounter st + 1) / 2 ^ 32 % 2 ^ 32) := by
      exact (Option.some_inj.mp h).symm
    have hcc : ccCounter st ≤ 2 ^ 64 - 2 := by
      have : ccCounter st ≤ 2 ^ 64 - 1 := by
        unfold ccCounter; omega
      omega
    constructor
    · have h13u : u.getD 13 0 = (ccCounter st + 1) / 2 ^ 32 % 2 ^ 32 := by
        rw [hu, List.getD_eq_getElem?_getD,
          List.getElem?_set_eq_of_lt _ (by simp [hl])]
        rfl
      have h12u : u.getD 12 0 = (ccCounter st + 1) % 2 ^ 32 := by
        rw [hu, List.getD_eq_getElem?_getD, List.getElem?_set_ne (by omega),
          List.getElem?_set_eq_of_lt _ (by simp [hl])]
        rfl
      show u.getD 13 0 * 2 ^ 32 + u.getD 12 0 = ccCounter st + 1
      rw [h13u, h12u]
      omega
    · intro i hi12 hi13
      rw [hu, List.getD_eq_getElem?_getD, List.getElem?_set_ne (by omega),
        List.getElem?_set_ne (by omega), ← List.getD_eq_getElem?_getD]

/-! ## Claim C3 -/

/-- C3 counterexample: at the zero-seeded initial state the counter does
not overflow during block production, yet word 0 of the stored generator
state after producing a block differs from word 0 of the state before —
the fourteen non-counter words are not preserved, refuting the claim that
the counter increment is the only change. -/
theorem c3_state_words_not_preserved :
    (incrementCounter (calculateBlock 4 (initState (List.replicate 40 0)))).isSome = true ∧
    (ccGenerate [] ⟨initState (List.replicate 40 0), ebNew⟩).2.state.getD 0 0 ≠
      (initState (List.replicate 40 0)).getD 0 0 := by
  decide

/-- C3 (amended): after producing a block the stored generator state is
`increment_counter(calculate_block(state))` — the feed-forward block
output with the 64-bit counter packed across its words 12 and 13
incremented by one; every non-counter word equals the corresponding word
of the block output, not of the pre-block state. -/
theorem c3_generate_state_update (st fresh : List ℕ) (cache : EBuf) (u : List ℕ)
    (hlen : st.length = 16)
    (h : incrementCounter (calculateBlock 4 st) = some u) :
    (ccGenerate fresh ⟨st, cache⟩).2.state = u ∧
    ccCounter u = ccCounter (calculateBlock 4 st) + 1 ∧
    ∀ i, i ≠ 12 → i ≠ 13 → u.getD i 0 = (calculateBlock 4 st).getD i 0 := by
  refine ⟨by simp [ccGenerate, h], ?_⟩
  exact incrementCounter_spec _ u h
    (calculateBlock_getD_lt 4 12 st (by omega))
    (calculateBlock_getD_lt 4 13 st (by omega))
    (by rw [calculateBlock_length, hlen])

/-- C3 witness: the amended theorem evaluated at the zero-seeded initial
state. -/
theorem c3_generate_state_update_witness :
    (ccGenerate [] ⟨initState (List.replicate 40 0), ebNew⟩).2.state =
      [0x2fef003e, 0xd6405f89, 0xe8b85b7f, 0xa1a5091f, 0xc30e842c, 0x3b7f9ace,
       0x88e11b18, 0x1e1a71ef, 0x72e14c98, 0x416f21b9, 0x6753449f, 0x19566d45,
       0xa3424a32, 0x01b086da, 0xb8fd7b38, 0x42fe0c0e] ∧
    ccCounter
      [0x2fef003e, 0xd6405f89, 0xe8b85b7f, 0xa1a5091f, 0xc30e842c, 0x3b7f9ace,
       0x88e11b18, 0x1e1a71ef, 0x72e14c98, 0x416f21b9, 0x6753449f, 0x19566d45,
       0xa3424a32, 0x01b086da, 0xb8fd7b38, 0x42fe0c0e] =
      ccCounter (calculateBlock 4 (initState (List.replicate 40 0))) + 1 := by
  have h := c3_generate_state_update (initState (List.replicate 40 0)) [] ebNew
    [0x2fef003e, 0xd6405f89, 0xe8b85b7f, 0xa1a5091f, 0xc30e842c, 0x3b7f9ace,
     0x88e11b18, 0x1e1a71ef, 0x72e14c98, 0x416f21b9, 0x6753449f, 0x19566d45,
     0xa3424a32, 0x01b086da, 0xb8fd7b38, 0x42fe0c0e]
    (by decide) (by decide)
  exact ⟨h.1, h.2.1⟩

/-! ## Claim C4 -/

/-- C4: `increment_counter` returns `None` exactly when the 64-bit counter
packed across words 12 and 13 equals `2^64 - 1`; in that case block
production replaces the generator with `reseed(fresh)` — the state
re-initialised from the fresh 40-byte entropy draw with the counter at
zero — and the entropy cache emptied; otherwise only the
incremented-counter state is written back. -/
theorem c4_counter_overflow_reseeds (st fresh : List ℕ) (cache : EBuf) :
    (incrementCounter st = none ↔ ccCounter st = 2 ^ 64 - 1) ∧
    ((ccGenerate fresh ⟨st, cache⟩).2 =
      match incrementCounter (calculateBlock 4 st) with
      | none => ccReseed fresh ⟨st, cache⟩
      | some u => { state := u, cache := cache }) ∧
    ccReseed fresh ⟨st, cache⟩ = { state := initState fresh, cache := ebNew } ∧
    ccCounter (initState fresh) = 0 ∧
    ebIsEmpty ebNew = true := by
  refine ⟨?_, ?_, rfl, by simp [ccCounter, initState], rfl⟩
  · unfold incrementCounter
    split <;> simp_all
  · cases h : incrementCounter (calculateBlock 4 st) <;> simp [ccGenerate, h]

/-! ## Claim C7 -/

/-- C7 counterexample: `Rng::reseed(2)` stores `2` — an even state — not
the odd value `(2 << 1) | 1 = 5` that `Rng::with_seed(2)` stores, refuting
the claim that both seeding paths force the stored state odd. -/
theorem c7_reseed_not_forced_odd :
    rngReseedState 2 = 2 ∧ ¬ Odd (rngReseedState 2) ∧ rngWithSeedState 2 = 5 := by
  decide

/-- C7 (amended): `Rng::with_seed(seed)` stores `(seed << 1) | 1`, which is
always odd; `Rng::reseed(seed)` stores the seed unchanged, so the stored
state after a reseed is odd exactly when the seed itself is odd. -/
theorem c7_seeding_states (seed : ℕ) :
    rngWithSeedState seed = seed * 2 % 2 ^ 64 ||| 1 ∧
    Odd (rngWithSeedState seed) ∧
    rngReseedState seed = seed ∧
    (Odd (rngReseedState seed) ↔ Odd seed) := by
  refine ⟨rfl, ?_, rfl, Iff.rfl⟩
  rw [rngWithSeedState, Nat.odd_iff, ← Nat.and_one_is_mod]
  simp [Nat.and_comm]

/-! ## Claim C10 -/

/-- C10 counterexample: the rate `2^-65` lies strictly between `0.0` and
`1.0` (and is exactly representable as an `f64`), yet `chance` scales it to
the integer `0` and returns `false` without consuming any random output —
refuting that exactly one `u64` is drawn for every rate strictly between
`0.0` and `1.0`. -/
theorem c10_tiny_rate_draws_nothing :
    (0 : ℚ) < 1 / 2 ^ 65 ∧ (1 / 2 ^ 65 : ℚ) < 1 ∧
    chanceModel (1 / 2 ^ 65) (fun i => i) = .ok (false, 0) := by
  refine ⟨by norm_num, by norm_num, ?_⟩
  have h1 : ((1 : ℚ) / 2 ^ 65) * 2 ^ 64 = 1 / 2 := by norm_num
  have hs : satCastU64 ((1 / 2 ^ 65 : ℚ) * 2 ^ 64) = 0 := by
    rw [h1, satCastU64]
    norm_num
  rw [chanceModel, if_pos (by constructor <;> norm_num)]
  simp only [hs]
  norm_num

/-- C10 (amended): `chance(0.0)` always returns `false` and `chance(1.0)`
always returns `true`, both without consuming random output; one raw `u64`
is drawn and compared exactly when the scaled threshold
`(rate * 2^64) as u64` is neither `0` nor `u64::MAX` — in particular
positive rates that scale below `1` also return `false` while consuming
nothing. -/
theorem c10_chance_edges (rate : ℚ) (gen : ℕ → ℕ) (h0 : 0 ≤ rate) (h1 : rate ≤ 1) :
    chanceModel 0 gen = .ok (false, 0) ∧
    chanceModel 1 gen = .ok (true, 0) ∧
    ∀ b n, chanceModel rate gen = .ok (b, n) →
      (n = 1 ↔ satCastU64 (rate * 2 ^ 64) ≠ 0 ∧ satCastU64 (rate * 2 ^ 64) ≠ 2 ^ 64 - 1) ∧
      (satCastU64 (rate * 2 ^ 64) = 0 → b = false ∧ n = 0) ∧
      (satCastU64 (rate * 2 ^ 64) = 2 ^ 64 - 1 → b = true ∧ n = 0) := by
  refine ⟨?_, ?_, ?_⟩
  · rw [chanceModel, if_pos (by norm_num)]
    have hs : satCastU64 ((0 : ℚ) * 2 ^ 64) = 0 := by
      rw [satCastU64]
      norm_num
    simp only [hs]
    norm_num
  · rw [chanceModel, if_pos (by norm_num)]
    have hs : satCastU64 ((1 : ℚ) * 2 ^ 64) = 2 ^ 64 - 1 := by
      rw [satCastU64]
      norm_num
    simp only [hs]
    simp
  · intro b n h
    rw [chanceModel, if_pos ⟨h0, h1⟩] at h
    dsimp only at h
    split_ifs at h with hA hB
    · simp only [Except.ok.injEq, Prod.mk.injEq] at h
      obtain ⟨hb, hn⟩ := h
      subst hb hn
      refine ⟨by simp [hA], ?_, fun _ => ⟨rfl, rfl⟩⟩
      intro h0s
      rw [h0s] at hA
      exact absurd hA (by norm_num)
    · simp only [Except.ok.injEq, Prod.mk.injEq] at h
      obtain ⟨hb, hn⟩ := h
      subst hb hn
      exact ⟨by simp [hB], fun _ => ⟨rfl, rfl⟩, fun hmax => absurd hmax hA⟩
    · simp only [Except.ok.injEq, Prod.mk.injEq] at h
      obtain ⟨hb, hn⟩ := h
      subst hb hn
      exact ⟨⟨fun _ => ⟨hB, hA⟩, fun _ => rfl⟩, fun h0s => absurd h0s hB,
        fun hmax => absurd hmax hA⟩

/-- C10 witness: the amended theorem applied at the rates `0`, `1` and
`1/2`. -/
theorem c10_chance_edges_witness :
    chanceModel 0 (fun _ => 0) = .ok (false, 0) ∧
    chanceModel 1 (fun _ => 0) = .ok (true, 0) ∧
    satCastU64 ((1 / 2 : ℚ) * 2 ^ 64) ≠ 0 := by
  have h := c10_chance_edges (1 / 2) (fun _ => 0) (by norm_num) (by norm_num)
  refine ⟨h.1, h.2.1, ?_⟩
  have hs : satCastU64 ((1 / 2 : ℚ) * 2 ^ 64) = 2 ^ 63 := by
    have h12 : ((1 : ℚ) / 2) * 2 ^ 64 = 2 ^ 63 := by norm_num
    rw [h12, satCastU64]
    norm_num
    rfl
  have hrun : chanceModel (1 / 2) (fun _ => 0) = .ok (true, 1) := by
    rw [chanceModel, if_pos (by norm_num)]
    simp only [hs]
    norm_num
  exact ((h.2.2 true 1 hrun).1.mp rfl).1

/-! ## Sampler lemmas -/

/-- Well-formed unsigned bound: its endpoint fits the machine width. -/
def rboundWF (W : ℕ) : RBound → Prop
  | .included n => n < 2 ^ W
  | .excluded n => n < 2 ^ W
  | .unbounded => True

/-- Well-formed signed bound: its endpoint fits the signed machine range. -/
def rboundZWF (W : ℕ) : RBoundZ → Prop
  | .included x => -(2 ^ (W - 1)) ≤ x ∧ x ≤ 2 ^ (W - 1) - 1
  | .excluded x => -(2 ^ (W - 1)) ≤ x ∧ x ≤ 2 ^ (W - 1) - 1
  | .unbounded => True

theorem resolveLowerU_lt (W : ℕ) (hW : 0 < W) (lo : RBound) (hwf : rboundWF W lo) :
    resolveLowerU W lo < 2 ^ W := by
  have h1 : 0 < 2 ^ W := Nat.pos_pow_of_pos W (by norm_num)
  cases lo with
  | included n => exact hwf
  | excluded n =>
    simp only [resolveLowerU]
    omega
  | unbounded => simpa [resolveLowerU]

theorem resolveUpperU_lt (W : ℕ) (hW : 0 < W) (hi : RBound) (hwf : rboundWF W hi) :
    resolveUpperU W hi < 2 ^ W := by
  have h1 : 0 < 2 ^ W := Nat.pos_pow_of_pos W (by norm_num)
  cases hi with
  | included n => exact hwf
  | excluded n =>
    simp only [resolveUpperU]
    have : (n : ℕ) < 2 ^ W := hwf
    omega
  | unbounded =>
    simp only [resolveUpperU]
    omega

theorem lemireThreshold_lt (W range : ℕ) (h : 0 < range) : lemireThreshold W range < range :=
  Nat.mod_lt _ h

/-- Whatever the rejection loop returns is below `range`. -/
theorem lemireLoop_out (W range t : ℕ) (raws : List ℕ) (hw : ∀ r ∈ raws, r < 2 ^ W)
    (hr : 0 < range) :
    ∀ v rest, lemireLoop W range t raws = some (v, rest) → v < range := by
  induction raws with
  | nil => intro v rest h; simp [lemireLoop] at h
  | cons r raws ih =>
    intro v rest h
    rw [lemireLoop] at h
    split at h
    · exact ih (fun x hx => hw x (List.mem_cons_of_mem r hx)) v rest h
    · obtain ⟨hv, -⟩ := Prod.mk.injEq .. ▸ Option.some_inj.mp h
      subst hv
      have hb : 0 < 2 ^ W := Nat.pos_pow_of_pos W (by norm_num)
      rw [Nat.div_lt_iff_lt_mul hb]
      calc r * range < 2 ^ W * range :=
            Nat.mul_lt_mul_of_lt_of_le (hw r (List.mem_cons_self r raws)) le_rfl hr
        _ = range * 2 ^ W := Nat.mul_comm _ _

/-- Whatever the full rejection step returns is below `range`. -/
theorem lemireSample_out (W range : ℕ) (raws : List ℕ) (hw : ∀ r ∈ raws, r < 2 ^ W)
    (hr : 0 < range) :
    ∀ v rest, lemireSample W range raws = some (v, rest) → v < range := by
  intro v rest h
  have hdiv : ∀ x ∈ raws, x * range / 2 ^ W < range := by
    intro x hx
    have hb : 0 < 2 ^ W := Nat.pos_pow_of_pos W (by norm_num)
    rw [Nat.div_lt_iff_lt_mul hb]
    calc x * range < 2 ^ W * range :=
          Nat.mul_lt_mul_of_lt_of_le (hw x hx) le_rfl hr
      _ = range * 2 ^ W := Nat.mul_comm _ _
  cases raws with
  | nil => simp [lemireSample] at h
  | cons r raws =>
    rw [lemireSample] at h
    split at h
    · split at h
      · exact lemireLoop_out W range _ raws (fun x hx => hw x (List.mem_cons_of_mem r hx))
          hr v rest h
      · obtain ⟨hv, -⟩ := Prod.mk.injEq .. ▸ Option.some_inj.mp h
        exact hv ▸ hdiv r (List.mem_cons_self r raws)
    · obtain ⟨hv, -⟩ := Prod.mk.injEq .. ▸ Option.some_inj.mp h
      exact hv ▸ hdiv r (List.mem_cons_self r raws)

/-- The rejection loop succeeds as soon as the raw list contains an
accepted draw. -/
theorem lemireLoop_isSome (W range t : ℕ) (raws : List ℕ)
    (hacc : ∃ r ∈ raws, ¬(r * range % 2 ^ W < t)) :
    ∃ v rest, lemireLoop W range t raws = some (v, rest) := by
  induction raws with
  | nil => simp at hacc
  | cons r raws ih =>
    rw [lemireLoop]
    by_cases hr : r * range % 2 ^ W < t
    · rw [if_pos hr]
      refine ih ?_
      obtain ⟨x, hx, hxa⟩ := hacc
      rcases List.mem_cons.mp hx with h | h
      · exact absurd hr (h ▸ hxa)
      · exact ⟨x, h, hxa⟩
    · rw [if_neg hr]
      exact ⟨_, _, rfl⟩

/-- The full rejection step succeeds as soon as the raw list contains an
accepted draw. -/
theorem lemireSample_isSome (W range : ℕ) (raws : List ℕ) (hr : 0 < range)
    (hacc : ∃ r ∈ raws, ¬(r * range % 2 ^ W < lemireThreshold W range)) :
    ∃ v rest, lemireSample W range raws = some (v, rest) := by
  cases raws with
  | nil => simp at hacc
  | cons r raws =>
    rw [lemireSample]
    by_cases h1 : r * range % 2 ^ W < range
    · rw [if_pos h1]
      by_cases h2 : r * range % 2 ^ W < lemireThreshold W range
      · rw [if_pos h2]
        refine lemireLoop_isSome W range _ raws ?_
        obtain ⟨x, hx, hxa⟩ := hacc
        rcases List.mem_cons.mp hx with h | h
        · exact absurd h2 (h ▸ hxa)
        · exact ⟨x, h, hxa⟩
      · rw [if_neg h2]
        exact ⟨_, _, rfl⟩
    · rw [if_neg h1]
      exact ⟨_, _, rfl⟩

/-- In the non-full-width branch the wrapping range computation gives the
exact value count `upper - lower + 1`. -/
theorem rangeOfU_eq (W lower upper : ℕ) (hle : lower ≤ upper) (hu : upper < 2 ^ W)
    (hne : ¬(lower = 0 ∧ upper = 2 ^ W - 1)) :
    rangeOfU W lower upper = upper - lower + 1 ∧ 0 < upper - lower + 1 ∧
      upper - lower + 1 < 2 ^ W := by
  have hsub : wsub W upper lower = upper - lower := by
    unfold wsub
    have h1 : upper + 2 ^ W - lower = (upper - lower) + 2 ^ W := by omega
    rw [h1, Nat.add_mod_right, Nat.mod_eq_of_lt (by omega)]
  have hlt : upper - lower + 1 < 2 ^ W := by omega
  refine ⟨?_, by omega, hlt⟩
  unfold rangeOfU
  rw [hsub, Nat.mod_eq_of_lt hlt]

/-- Containment, panic-freedom and productivity of the unsigned macro
sampler on any well-formed non-empty resolved bound pair. -/
theorem rangeSampleU_spec (W : ℕ) (hW : 0 < W) (lo hi : RBound)
    (hlo : rboundWF W lo) (hhi : rboundWF W hi) (raws : List ℕ)
    (hw : ∀ r ∈ raws, r < 2 ^ W)
    (hle : resolveLowerU W lo ≤ resolveUpperU W hi) :
    rangeSampleU W lo hi raws ≠ .error () ∧
    (∀ v rest, rangeSampleU W lo hi raws = .ok (some (v, rest)) →
      resolveLowerU W lo ≤ v ∧ v ≤ resolveUpperU W hi) ∧
    ((¬(resolveLowerU W lo = 0 ∧ resolveUpperU W hi = 2 ^ W - 1) →
      (∃ r ∈ raws,
        ¬(r * (resolveUpperU W hi - resolveLowerU W lo + 1) % 2 ^ W <
          lemireThreshold W (resolveUpperU W hi - resolveLowerU W lo + 1))) →
      ∃ v rest, rangeSampleU W lo hi raws = .ok (some (v, rest))) ∧
     (resolveLowerU W lo = 0 ∧ resolveUpperU W hi = 2 ^ W - 1 → raws ≠ [] →
      ∃ v rest, rangeSampleU W lo hi raws = .ok (some (v, rest)))) := by
  set lower := resolveLowerU W lo with hlodef
  set upper := resolveUpperU W hi with hhidef
  have hup : upper < 2 ^ W := resolveUpperU_lt W hW hi hhi
  unfold rangeSampleU
  rw [if_pos hle]
  simp only [← hlodef, ← hhidef]
  by_cases hfull : lower = 0 ∧ upper = 2 ^ W - 1
  · rw [if_pos hfull]
    refine ⟨by simp, ?_, fun h => absurd hfull h, ?_⟩
    · intro v rest h
      cases raws with
      | nil => simp at h
      | cons r rs =>
        simp only [Except.ok.injEq, Option.some.injEq, Prod.mk.injEq] at h
        obtain ⟨hv, -⟩ := h
        have hrlt := hw r (List.mem_cons_self r rs)
        omega
    · intro _ hne
      cases raws with
      | nil => exact absurd rfl hne
      | cons r rs => exact ⟨r, rs, rfl⟩
  · rw [if_neg hfull]
    obtain ⟨hrange, hpos, hlt⟩ := rangeOfU_eq W lower upper hle hup hfull
    refine ⟨by simp, ?_, ?_, fun h => absurd h hfull⟩
    · intro v rest h
      simp only [Except.ok.injEq] at h
      obtain ⟨⟨v₀, rest₀⟩, hvr, hmap⟩ := Option.map_eq_some'.mp h
      obtain ⟨hv, -⟩ := Prod.mk.injEq .. ▸ hmap
      have hout : v₀ < upper - lower + 1 := by
        rw [hrange] at hvr
        exact lemireSample_out W _ raws hw (by omega) v₀ rest₀ hvr
      subst hv
      rw [Nat.mod_eq_of_lt (by omega)]
      omega
    · intro _ hacc
      rw [hrange]
      obtain ⟨v, rest, hsome⟩ := lemireSample_isSome W (upper - lower + 1) raws (by omega) hacc
      exact ⟨(lower + v) % 2 ^ W, rest, by rw [hsome]; rfl⟩

theorem toSignedZ_bounds (W : ℕ) (hW : 0 < W) (v : ℕ) (hv : v < 2 ^ W) :
    -(2 ^ (W - 1) : ℤ) ≤ toSignedZ W v ∧ toSignedZ W v ≤ 2 ^ (W - 1) - 1 := by
  have hpow : ((2 : ℤ) ^ W) = 2 ^ (W - 1) * 2 := by
    rw [← pow_succ]
    congr 1
    omega
  have hhalf : (0 : ℤ) < 2 ^ (W - 1) := by positivity
  have hvz : (v : ℤ) < 2 ^ W := by exact_mod_cast hv
  unfold toSignedZ
  split
  · rename_i hlt
    have : (v : ℤ) < ((2 ^ (W - 1) : ℕ) : ℤ) := by exact_mod_cast hlt
    push_cast at this
    constructor <;> omega
  · rename_i hge
    have : ((2 ^ (W - 1) : ℕ) : ℤ) ≤ (v : ℤ) := by
      exact_mod_cast Nat.le_of_not_lt hge
    push_cast at this
    constructor <;> omega

theorem toSignedZ_emod (W : ℕ) (v : ℕ) :
    toSignedZ W v % (2 ^ W : ℤ) = (v : ℤ) % 2 ^ W := by
  unfold toSignedZ
  split
  · rfl
  · exact Int.emod_sub_cancel _ _

theorem wrapZ_emod_congr (W : ℕ) (x y : ℤ) (h : x % 2 ^ W = y % 2 ^ W) :
    wrapZ W x = wrapZ W y := by
  unfold wrapZ toUnsignedZ
  rw [h]

theorem wrapZ_eq_self (W : ℕ) (hW : 0 < W) (x : ℤ) (h1 : -(2 ^ (W - 1)) ≤ x)
    (h2 : x ≤ 2 ^ (W - 1) - 1) : wrapZ W x = x := by
  have hpow : ((2 : ℤ) ^ W) = 2 ^ (W - 1) * 2 := by
    rw [← pow_succ]
    congr 1
    omega
  have hhalf : (0 : ℤ) < 2 ^ (W - 1) := by positivity
  have hppos : (0 : ℤ) < 2 ^ W := by positivity
  have hm0 : 0 ≤ x % 2 ^ W := Int.emod_nonneg x (by positivity)
  have hcast : ((toUnsignedZ W x : ℕ) : ℤ) = x % 2 ^ W := Int.toNat_of_nonneg hm0
  have hcastHalf : (((2 ^ (W - 1) : ℕ)) : ℤ) = 2 ^ (W - 1) := by push_cast; rfl
  have hcases : x % 2 ^ W = x ∨ x % 2 ^ W = x + 2 ^ W := by
    by_cases hx : 0 ≤ x
    · exact Or.inl (Int.emod_eq_of_lt hx (by omega))
    · right
      have hshift : (x + 2 ^ W) % 2 ^ W = x % 2 ^ W := by
        simpa using Int.add_mul_emod_self_left (a := x) (b := 2 ^ W) (c := 1)
      rw [← hshift]
      exact Int.emod_eq_of_lt (by omega) (by omega)
  unfold wrapZ toSignedZ
  rcases hcases with hc | hc
  · have hx0 : 0 ≤ x := hc ▸ hm0
    rw [if_pos ?cond]
    case cond =>
      have : ((toUnsignedZ W x : ℕ) : ℤ) < ((2 ^ (W - 1) : ℕ) : ℤ) := by
        rw [hcast, hc, hcastHalf]
        omega
      exact_mod_cast this
    rw [hcast, hc]
  · rw [if_neg ?cond]
    case cond =>
      intro hcon
      have : ((toUnsignedZ W x : ℕ) : ℤ) < ((2 ^ (W - 1) : ℕ) : ℤ) := by exact_mod_cast hcon
      rw [hcast, hc, hcastHalf] at this
      omega
    rw [hcast, hc]
    ring

theorem resolveLowerZ_bounds (W : ℕ) (lo : RBoundZ) (hwf : rboundZWF W lo) :
    -(2 ^ (W - 1) : ℤ) ≤ resolveLowerZ W lo ∧ resolveLowerZ W lo ≤ 2 ^ (W - 1) - 1 := by
  have hhalf : (0 : ℤ) < 2 ^ (W - 1) := by positivity
  cases lo with
  | included x => exact hwf
  | excluded x =>
    obtain ⟨ha, hb⟩ := hwf
    simp only [resolveLowerZ]
    constructor
    · rw [le_min_iff]
      omega
    · exact min_le_right _ _
  | unbounded =>
    simp only [resolveLowerZ]
    omega

theorem resolveUpperZ_bounds (W : ℕ) (hi : RBoundZ) (hwf : rboundZWF W hi) :
    -(2 ^ (W - 1) : ℤ) ≤ resolveUpperZ W hi ∧ resolveUpperZ W hi ≤ 2 ^ (W - 1) - 1 := by
  have hhalf : (0 : ℤ) < 2 ^ (W - 1) := by positivity
  cases hi with
  | included x => exact hwf
  | excluded x =>
    obtain ⟨ha, hb⟩ := hwf
    simp only [resolveUpperZ]
    constructor
    · exact le_max_right _ _
    · rw [max_le_iff]
      omega
  | unbounded =>
    simp only [resolveUpperZ]
    omega

/-- In the non-full-width branch the signed range cast gives the exact
value count. -/
theorem toUnsignedZ_range_eq (W : ℕ) (hW : 0 < W) (lower upper : ℤ)
    (hle : lower ≤ upper)
    (hl : -(2 ^ (W - 1)) ≤ lower) (hu : upper ≤ 2 ^ (W - 1) - 1)
    (hne : ¬(lower = -(2 ^ (W - 1)) ∧ upper = 2 ^ (W - 1) - 1)) :
    ((toUnsignedZ W (upper - lower + 1) : ℕ) : ℤ) = upper - lower + 1 ∧
    0 < toUnsignedZ W (upper - lower + 1) ∧
    toUnsignedZ W (upper - lower + 1) < 2 ^ W := by
  have hpow : ((2 : ℤ) ^ W) = 2 ^ (W - 1) * 2 := by
    rw [← pow_succ]
    congr 1
    omega
  have hhalf : (0 : ℤ) < 2 ^ (W - 1) := by positivity
  have hranges : 0 < upper - lower + 1 ∧ upper - lower + 1 < 2 ^ W := by
    constructor
    · omega
    · omega
  have hmod : (upper - lower + 1) % (2 ^ W : ℤ) = upper - lower + 1 :=
    Int.emod_eq_of_lt (by omega) (by omega)
  have hcast : ((toUnsignedZ W (upper - lower + 1) : ℕ) : ℤ) = upper - lower + 1 := by
    unfold toUnsignedZ
    rw [hmod, Int.toNat_of_nonneg (by omega)]
  refine ⟨hcast, ?_, ?_⟩
  · have : (0 : ℤ) < ((toUnsignedZ W (upper - lower + 1) : ℕ) : ℤ) := by omega
    exact_mod_cast this
  · have hWz : ((2 ^ W : ℕ) : ℤ) = (2 : ℤ) ^ W := by push_cast; rfl
    have : ((toUnsignedZ W (upper - lower + 1) : ℕ) : ℤ) < ((2 ^ W : ℕ) : ℤ) := by
      rw [hcast, hWz]
      omega
    exact_mod_cast this

/-- Containment, panic-freedom and productivity of the signed macro
sampler on any well-formed non-empty resolved bound pair. -/
theorem rangeSampleZ_spec (W : ℕ) (hW : 0 < W) (lo hi : RBoundZ)
    (hlo : rboundZWF W lo) (hhi : rboundZWF W hi) (raws : List ℕ)
    (hw : ∀ r ∈ raws, r < 2 ^ W)
    (hle : resolveLowerZ W lo ≤ resolveUpperZ W hi) :
    rangeSampleZ W lo hi raws ≠ .error () ∧
    (∀ v rest, rangeSampleZ W lo hi raws = .ok (some (v, rest)) →
      resolveLowerZ W lo ≤ v ∧ v ≤ resolveUpperZ W hi) ∧
    ((¬(resolveLowerZ W lo = -(2 ^ (W - 1)) ∧ resolveUpperZ W hi = 2 ^ (W - 1) - 1) →
      (∃ r ∈ raws,
        ¬(r * toUnsignedZ W (resolveUpperZ W hi - resolveLowerZ W lo + 1) % 2 ^ W <
          lemireThreshold W
            (toUnsignedZ W (resolveUpperZ W hi - resolveLowerZ W lo + 1)))) →
      ∃ v rest, rangeSampleZ W lo hi raws = .ok (some (v, rest))) ∧
     (resolveLowerZ W lo = -(2 ^ (W - 1)) ∧ resolveUpperZ W hi = 2 ^ (W - 1) - 1 →
      raws ≠ [] →
      ∃ v rest, rangeSampleZ W lo hi raws = .ok (some (v, rest)))) := by
  set lower := resolveLowerZ W lo with hlodef
  set upper := resolveUpperZ W hi with hhidef
  obtain ⟨hlmin, hlmax⟩ := resolveLowerZ_bounds W lo hlo
  obtain ⟨humin, humax⟩ := resolveUpperZ_bounds W hi hhi
  unfold rangeSampleZ
  rw [if_pos hle]
  simp only [← hlodef, ← hhidef]
  by_cases hfull : lower = -(2 ^ (W - 1) : ℤ) ∧ upper = 2 ^ (W - 1) - 1
  · rw [if_pos hfull]
    refine ⟨by simp, ?_, fun h => absurd hfull h, ?_⟩
    · intro v rest h
      cases raws with
      | nil => simp at h
      | cons r rs =>
        simp only [Except.ok.injEq, Option.some.injEq, Prod.mk.injEq] at h
        obtain ⟨hv, -⟩ := h
        obtain ⟨hb1, hb2⟩ :=
          toSignedZ_bounds W hW r (hw r (List.mem_cons_self r rs))
        rw [hfull.1, hfull.2, ← hv]
        exact ⟨hb1, hb2⟩
    · intro _ hne
      cases raws with
      | nil => exact absurd rfl hne
      | cons r rs => exact ⟨toSignedZ W r, rs, rfl⟩
  · rw [if_neg hfull]
    obtain ⟨hcast, hpos, hlt⟩ :=
      toUnsignedZ_range_eq W hW lower upper hle hlmin humax hfull
    refine ⟨by simp, ?_, ?_, fun h => absurd h hfull⟩
    · intro v rest h
      simp only [Except.ok.injEq] at h
      obtain ⟨⟨v₀, rest₀⟩, hvr, hmap⟩ := Option.map_eq_some'.mp h
      obtain ⟨hv, -⟩ := Prod.mk.injEq .. ▸ hmap
      have hout : v₀ < toUnsignedZ W (upper - lower + 1) :=
        lemireSample_out W _ raws hw hpos v₀ rest₀ hvr
      have hv0z : (v₀ : ℤ) < upper - lower + 1 := by
        calc (v₀ : ℤ) < ((toUnsignedZ W (upper - lower + 1) : ℕ) : ℤ) := by
              exact_mod_cast hout
          _ = upper - lower + 1 := hcast
      have hv0nn : (0 : ℤ) ≤ (v₀ : ℤ) := Int.ofNat_nonneg v₀
      have hv0lt : v₀ < 2 ^ W := by omega
      have hcongr : wrapZ W (lower + toSignedZ W v₀) = wrapZ W (lower + (v₀ : ℤ)) := by
        refine wrapZ_emod_congr W _ _ ?_
        rw [Int.add_emod, toSignedZ_emod W v₀, ← Int.add_emod]
      have hself : wrapZ W (lower + (v₀ : ℤ)) = lower + v₀ :=
        wrapZ_eq_self W hW _ (by omega) (by omega)
      rw [← hv, hcongr, hself]
      omega
    · intro _ hacc
      obtain ⟨v, rest, hsome⟩ := lemireSample_isSome W _ raws hpos hacc
      exact ⟨wrapZ W (lower + toSignedZ W v), rest, by rw [hsome]; rfl⟩

/-- The limb decomposition of `multiply_high_u128` computes the exact high
half of the 256-bit product. -/
theorem multiplyHighU128_eq (a b : ℕ) (ha : a < 2 ^ 128) (hb : b < 2 ^ 128) :
    multiplyHighU128 a b = a * b / 2 ^ 128 := by
  have hah : a / 2 ^ 64 % 2 ^ 64 = a / 2 ^ 64 := Nat.mod_eq_of_lt (by omega)
  have hbh : b / 2 ^ 64 % 2 ^ 64 = b / 2 ^ 64 := Nat.mod_eq_of_lt (by omega)
  have key : a * b =
      ((a / 2 ^ 64) * (b / 2 ^ 64) * 2 ^ 64 + (a / 2 ^ 64) * (b % 2 ^ 64) +
        (a % 2 ^ 64) * (b / 2 ^ 64)) * 2 ^ 64 + (a % 2 ^ 64) * (b % 2 ^ 64) := by
    have ha2 : 2 ^ 64 * (a / 2 ^ 64) + a % 2 ^ 64 = a := Nat.div_add_mod a (2 ^ 64)
    have hb2 : 2 ^ 64 * (b / 2 ^ 64) + b % 2 ^ 64 = b := Nat.div_add_mod b (2 ^ 64)
    calc a * b
        = (2 ^ 64 * (a / 2 ^ 64) + a % 2 ^ 64) * (2 ^ 64 * (b / 2 ^ 64) + b % 2 ^ 64) := by
          rw [ha2, hb2]
      _ = _ := by ring
  simp only [multiplyHighU128]
  rw [hah, hbh, key]
  omega

/-- `toUnsignedZ` lands below the modulus. -/
theorem toUnsignedZ_lt (W : ℕ) (x : ℤ) : toUnsignedZ W x < 2 ^ W := by
  have hp : (0 : ℤ) < 2 ^ W := by positivity
  have h := Int.emod_lt_of_pos x hp
  have h0 := Int.emod_nonneg x (by positivity)
  unfold toUnsignedZ
  have : ((x % 2 ^ W).toNat : ℤ) < ((2 ^ W : ℕ) : ℤ) := by
    rw [Int.toNat_of_nonneg h0]
    push_cast
    exact h
  exact_mod_cast this

theorem lemireLoop128_eq (range t : ℕ) (hr : range < 2 ^ 128) (raws : List ℕ)
    (hw : ∀ r ∈ raws, r < 2 ^ 128) :
    lemireLoop128 range t raws = lemireLoop 128 range t raws := by
  induction raws with
  | nil => rfl
  | cons r rs ih =>
    rw [lemireLoop128, lemireLoop]
    split
    · exact ih fun x hx => hw x (List.mem_cons_of_mem r hx)
    · rw [multiplyHighU128_eq r range (hw r (List.mem_cons_self r rs)) hr]

theorem lemireSample128_eq (range : ℕ) (hr : range < 2 ^ 128) (raws : List ℕ)
    (hw : ∀ r ∈ raws, r < 2 ^ 128) :
    lemireSample128 range raws = lemireSample 128 range raws := by
  cases raws with
  | nil => rfl
  | cons r rs =>
    rw [lemireSample128, lemireSample]
    have hmh := multiplyHighU128_eq r range (hw r (List.mem_cons_self r rs)) hr
    have hrest : ∀ x ∈ rs, x < 2 ^ 128 := fun x hx => hw x (List.mem_cons_of_mem r hx)
    split
    · split
      · exact lemireLoop128_eq range _ hr rs hrest
      · rw [hmh]
    · rw [hmh]

/-- `TurboRand::u128` agrees with the width-128 instance of the macro
sampler (the hand-rolled double-width multiply is exact). -/
theorem rangeSampleU128_eq (lo hi : RBound) (raws : List ℕ)
    (hw : ∀ r ∈ raws, r < 2 ^ 128) :
    rangeSampleU128 lo hi raws = rangeSampleU 128 lo hi raws := by
  have hr : rangeOfU 128 (resolveLowerU 128 lo) (resolveUpperU 128 hi) < 2 ^ 128 :=
    Nat.mod_lt _ (by positivity)
  simp only [rangeSampleU128, rangeSampleU]
  by_cases hle : resolveLowerU 128 lo ≤ resolveUpperU 128 hi
  · rw [if_pos hle, if_pos hle]
    by_cases hfull : resolveLowerU 128 lo = 0 ∧ resolveUpperU 128 hi = 2 ^ 128 - 1
    · rw [if_pos hfull, if_pos hfull]
    · rw [if_neg hfull, if_neg hfull, lemireSample128_eq _ hr raws hw]
  · rw [if_neg hle, if_neg hle]

/-- `TurboRand::i128` agrees with the width-128 instance of the signed
macro sampler. -/
theorem rangeSampleZ128_eq (lo hi : RBoundZ) (raws : List ℕ)
    (hw : ∀ r ∈ raws, r < 2 ^ 128) :
    rangeSampleZ128 lo hi raws = rangeSampleZ 128 lo hi raws := by
  have hr :
      toUnsignedZ 128 (resolveUpperZ 128 hi - resolveLowerZ 128 lo + 1) < 2 ^ 128 :=
    toUnsignedZ_lt 128 _
  simp only [rangeSampleZ128, rangeSampleZ, show (128 - 1 : ℕ) = 127 from rfl]
  by_cases hle : resolveLowerZ 128 lo ≤ resolveUpperZ 128 hi
  · rw [if_pos hle, if_pos hle]
    by_cases hfull : resolveLowerZ 128 lo = -(2 ^ 127 : ℤ) ∧
        resolveUpperZ 128 hi = 2 ^ 127 - 1
    · rw [if_pos hfull, if_pos hfull]
    · rw [if_neg hfull, if_neg hfull, lemireSample128_eq _ hr raws hw]
  · rw [if_neg hle, if_neg hle]

/-! ## Claim C1 -/

/-- C1: for every width (any `0 < W` covers `u8`/`i8` through `u64`/`i64`;
the hand-written `u128`/`i128` samplers are stated separately) and every
well-formed bound pair whose resolved inclusive pair satisfies
`lower <= upper`, the bounded sampler never panics, every value it returns
satisfies `lower <= v <= upper`, and it returns a value whenever the raw
sequence contains an accepted draw (on the full-width fast path, whenever
it is nonempty). -/
theorem c1_bounded_sampler_in_range :
    (∀ W, 0 < W → ∀ lo hi, rboundWF W lo → rboundWF W hi →
      ∀ raws, (∀ r ∈ raws, r < 2 ^ W) →
      resolveLowerU W lo ≤ resolveUpperU W hi →
      rangeSampleU W lo hi raws ≠ .error () ∧
      (∀ v rest, rangeSampleU W lo hi raws = .ok (some (v, rest)) →
        resolveLowerU W lo ≤ v ∧ v ≤ resolveUpperU W hi) ∧
      ((¬(resolveLowerU W lo = 0 ∧ resolveUpperU W hi = 2 ^ W - 1) →
        (∃ r ∈ raws,
          ¬(r * (resolveUpperU W hi - resolveLowerU W lo + 1) % 2 ^ W <
            lemireThreshold W (resolveUpperU W hi - resolveLowerU W lo + 1))) →
        ∃ v rest, rangeSampleU W lo hi raws = .ok (some (v, rest))) ∧
       (resolveLowerU W lo = 0 ∧ resolveUpperU W hi = 2 ^ W - 1 → raws ≠ [] →
        ∃ v rest, rangeSampleU W lo hi raws = .ok (some (v, rest))))) ∧
    (∀ W, 0 < W → ∀ lo hi, rboundZWF W lo → rboundZWF W hi →
      ∀ raws, (∀ r ∈ raws, r < 2 ^ W) →
      resolveLowerZ W lo ≤ resolveUpperZ W hi →
      rangeSampleZ W lo hi raws ≠ .error () ∧
      (∀ v rest, rangeSampleZ W lo hi raws = .ok (some (v, rest)) →
        resolveLowerZ W lo ≤ v ∧ v ≤ resolveUpperZ W hi) ∧
      ((¬(resolveLowerZ W lo = -(2 ^ (W - 1)) ∧
          resolveUpperZ W hi = 2 ^ (W - 1) - 1) →
        (∃ r ∈ raws,
          ¬(r * toUnsignedZ W (resolveUpperZ W hi - resolveLowerZ W lo + 1) % 2 ^ W <
            lemireThreshold W
              (toUnsignedZ W (resolveUpperZ W hi - resolveLowerZ W lo + 1)))) →
        ∃ v rest, rangeSampleZ W lo hi raws = .ok (some (v, rest))) ∧
       (resolveLowerZ W lo = -(2 ^ (W - 1)) ∧
          resolveUpperZ W hi = 2 ^ (W - 1) - 1 → raws ≠ [] →
        ∃ v rest, rangeSampleZ W lo hi raws = .ok (some (v, rest))))) ∧
    (∀ lo hi, rboundWF 128 lo → rboundWF 128 hi →
      ∀ raws, (∀ r ∈ raws, r < 2 ^ 128) →
      resolveLowerU 128 lo ≤ resolveUpperU 128 hi →
      rangeSampleU128 lo hi raws ≠ .error () ∧
      ∀ v rest, rangeSampleU128 lo hi raws = .ok (some (v, rest)) →
        resolveLowerU 128 lo ≤ v ∧ v ≤ resolveUpperU 128 hi) ∧
    (∀ lo hi, rboundZWF 128 lo → rboundZWF 128 hi →
      ∀ raws, (∀ r ∈ raws, r < 2 ^ 128) →
      resolveLowerZ 128 lo ≤ resolveUpperZ 128 hi →
      rangeSampleZ128 lo hi raws ≠ .error () ∧
      ∀ v rest, rangeSampleZ128 lo hi raws = .ok (some (v, rest)) →
        resolveLowerZ 128 lo ≤ v ∧ v ≤ resolveUpperZ 128 hi) := by
  refine ⟨fun W hW lo hi hlo hhi raws hw hle =>
      rangeSampleU_spec W hW lo hi hlo hhi raws hw hle,
    fun W hW lo hi hlo hhi raws hw hle =>
      rangeSampleZ_spec W hW lo hi hlo hhi raws hw hle,
    fun lo hi hlo hhi raws hw hle => ?_,
    fun lo hi hlo hhi raws hw hle => ?_⟩
  · rw [rangeSampleU128_eq lo hi raws hw]
    obtain ⟨h1, h2, -⟩ := rangeSampleU_spec 128 (by norm_num) lo hi hlo hhi raws hw hle
    exact ⟨h1, h2⟩
  · rw [rangeSampleZ128_eq lo hi raws hw]
    obtain ⟨h1, h2, -⟩ := rangeSampleZ_spec 128 (by norm_num) lo hi hlo hhi raws hw hle
    exact ⟨h1, h2⟩

/-- C1 witness: the sampler theorem evaluated on concrete widths, bounds
and raw draws. -/
theorem c1_bounded_sampler_in_range_witness :
    rangeSampleU 8 (.included 3) (.included 5) [255] ≠ .error () ∧
    resolveLowerU 8 (.included 3) ≤ 5 ∧ (5 : ℕ) ≤ resolveUpperU 8 (.included 5) ∧
    rangeSampleZ 8 (.included (-3)) (.included 3) [255] ≠ .error () ∧
    resolveLowerZ 8 (.included (-3)) ≤ 3 ∧ (3 : ℤ) ≤ resolveUpperZ 8 (.included 3) ∧
    rangeSampleU128 (.included 5) (.included 5) [0] ≠ .error () ∧
    rangeSampleZ128 (.included 0) (.included 1) [0] ≠ .error () := by
  obtain ⟨hU, hZ, hU128, hZ128⟩ := c1_bounded_sampler_in_range
  have h1 := hU 8 (by norm_num) (.included 3) (.included 5)
    (by norm_num [rboundWF]) (by norm_num [rboundWF]) [255] (by decide) (by decide)
  have h2 := hZ 8 (by norm_num) (.included (-3)) (.included 3)
    (by norm_num [rboundZWF]) (by norm_num [rboundZWF]) [255] (by decide) (by decide)
  have h3 := hU128 (.included 5) (.included 5)
    (by norm_num [rboundWF]) (by norm_num [rboundWF]) [0] (by decide) (by decide)
  have h4 := hZ128 (.included 0) (.included 1)
    (by norm_num [rboundZWF]) (by norm_num [rboundZWF]) [0] (by decide) (by decide)
  refine ⟨h1.1, ?_, ?_, h2.1, ?_, ?_, h3.1, h4.1⟩
  · exact (h1.2.1 5 [] (by decide)).1
  · exact (h1.2.1 5 [] (by decide)).2
  · exact (h2.2.1 3 [] (by decide)).1
  · exact (h2.2.1 3 [] (by decide)).2

/-! ## Claim C6 -/

/-- C6 counterexample: the resolved-empty exclusive range `0..0` on `u8`
does not panic — `saturating_sub` resolves it to the singleton pair
`(0, 0)` and the call returns `0`; likewise an exclusive lower bound at
`MAX` returns `MAX`.  This refutes the claim that every empty resolved
bound set panics for every integer width. -/
theorem c6_empty_exclusive_range_returns :
    rangeSampleU 8 (.included 0) (.excluded 0) [0] = .ok (some (0, [])) ∧
    rangeSampleU 8 (.excluded 255) .unbounded [7] = .ok (some (255, [])) := by
  decide

/-- C6 (amended): the samplers panic exactly when the resolved inclusive
pair has `lower > upper`.  For unsigned widths the boundary-empty requests
`0..0` (and an exclusive lower bound at `MAX`) saturate to singleton
resolved pairs and return that value instead of panicking, while for
signed widths `0..0` resolves to `(0, -1)` and panics. -/
theorem c6_panic_iff_resolved_inverted (W : ℕ) (hW : 0 < W) (lo hi : RBound)
    (loZ hiZ : RBoundZ) (raws : List ℕ) (r : ℕ) (rest : List ℕ) (hr : r < 2 ^ W) :
    (rangeSampleU W lo hi raws = .error () ↔
      resolveUpperU W hi < resolveLowerU W lo) ∧
    (rangeSampleZ W loZ hiZ raws = .error () ↔
      resolveUpperZ W hiZ < resolveLowerZ W loZ) ∧
    rangeSampleU W (.included 0) (.excluded 0) (r :: rest) = .ok (some (0, rest)) ∧
    rangeSampleZ W (.included 0) (.excluded 0) raws = .error () := by
  have h2W : 1 < 2 ^ W := Nat.one_lt_two_pow_iff.mpr (by omega)
  have hhalf : (0 : ℤ) < 2 ^ (W - 1) := by positivity
  refine ⟨?_, ?_, ?_, ?_⟩
  · simp only [rangeSampleU]
    split
    · rename_i h
      simp only [ne_eq, reduceCtorEq, false_iff]
      omega
    · rename_i h
      simp only [true_iff]
      omega
  · simp only [rangeSampleZ]
    split
    · rename_i h
      simp only [ne_eq, reduceCtorEq, false_iff]
      omega
    · rename_i h
      simp only [true_iff]
      omega
  · have hup : resolveUpperU W (.excluded 0) = 0 := rfl
    have hrange : rangeOfU W 0 0 = 1 := by
      unfold rangeOfU wsub
      simp [Nat.mod_self, Nat.mod_eq_of_lt h2W]
    have hthr : lemireThreshold W 1 = 0 := Nat.mod_one _
    simp only [rangeSampleU, resolveLowerU, hup]
    rw [if_pos (le_refl 0), if_neg (by omega), hrange]
    rw [lemireSample, hthr]
    have hrr : r * 1 % 2 ^ W = r := by
      rw [Nat.mul_one, Nat.mod_eq_of_lt hr]
    rw [hrr]
    have hdiv : r * 1 / 2 ^ W = 0 := by
      rw [Nat.mul_one]
      exact Nat.div_eq_of_lt hr
    by_cases hr1 : r < 1
    · rw [if_pos hr1, if_neg (by omega), hdiv]
      simp [Nat.mod_eq_of_lt (by omega : 0 + 0 < 2 ^ W)]
    · rw [if_neg hr1, hdiv]
      simp [Nat.mod_eq_of_lt (by omega : 0 + 0 < 2 ^ W)]
  · have hmax : resolveUpperZ W (.excluded 0) = -1 := by
      simp only [resolveUpperZ]
      rw [max_eq_left (by omega)]
      norm_num
    simp only [rangeSampleZ, resolveLowerZ, hmax]
    rw [if_neg (by omega)]

/-- C6 witness: the amended theorem evaluated at width 8. -/
theorem c6_panic_iff_resolved_inverted_witness :
    rangeSampleU 8 (.included 0) (.excluded 0) (7 :: []) = .ok (some (0, [])) ∧
    rangeSampleZ 8 (.included 0) (.excluded 0) [] = .error () := by
  have h := c6_panic_iff_resolved_inverted 8 (by norm_num) (.included 0) (.excluded 0)
    (.included 0) (.excluded 0) [] 7 [] (by norm_num)
  exact ⟨h.2.2.1, h.2.2.2⟩

/-! ## Claim C9 -/

/-- C9 counterexample: `partial_shuffle` on a zero-length slice hits the
`assert!(len > 1)` and panics (for both generator kinds and any amount),
refuting the claim that it completes as a well-defined no-op returning the
trivial split. -/
theorem c9_partial_shuffle_empty_panics :
    partialShuffle .FAST ([] : List ℕ) 0 [] = .error () ∧
    partialShuffle .SLOW ([] : List ℕ) 5 [1, 2] = .error () := by
  decide

/-- C9 (amended): `shuffle` leaves slices of fewer than two elements
untouched without panicking or consuming randomness (for both generator
kinds), but `partial_shuffle` asserts `len > 1` and panics on every slice
of length at most one — the zero-length slice included — whatever the
amount. -/
theorem c9_short_slice_behaviour (kind : TurboKind) (xs raws : List ℕ)
    (hlen : xs.length ≤ 1) :
    shuffle kind xs raws = .ok (some (xs, raws)) ∧
    ∀ amount, partialShuffle kind xs amount raws = .error () := by
  constructor
  · unfold shuffle
    rw [if_pos (by omega)]
  · intro amount
    unfold partialShuffle
    rw [if_neg (by omega)]

/-- C9 witness: the amended theorem on a singleton slice. -/
theorem c9_short_slice_behaviour_witness :
    shuffle .FAST [5] [9] = .ok (some ([5], [9])) ∧
    partialShuffle .FAST [5] 1 [9] = .error () := by
  have h := c9_short_slice_behaviour .FAST [5] [9] (by norm_num)
  exact ⟨h.1, h.2 1⟩

/-! ## Buffer lemmas -/

theorem ebByteRun_add {σ : Type} (src : σ → List ℕ × σ) (m n : ℕ) (st : EBuf × σ) :
    ebByteRun src (m + n) st =
      ((ebByteRun src m st).1 ++ (ebByteRun src n (ebByteRun src m st).2).1,
        (ebByteRun src n (ebByteRun src m st).2).2) := by
  induction m generalizing st with
  | zero => simp [ebByteRun]
  | succ m ih =>
    have hmn : m + 1 + n = (m + n) + 1 := by omega
    rw [hmn]
    simp only [ebByteRun]
    rw [ih]
    simp

/-- Serving `L` bytes from a stored block with `c + L ≤ b.length` reads the
slice `b[c .. c + L)` and only advances the cursor. -/
theorem ebByteRun_buffer {σ : Type} (src : σ → List ℕ × σ) (L : ℕ) :
    ∀ (b : List ℕ) (c : ℕ) (s : σ), c + L ≤ b.length →
    ebByteRun src L (⟨some b, c⟩, s) = ((b.drop c).take L, ⟨some b, c + L⟩, s) := by
  induction L with
  | zero =>
    intro b c s h
    simp [ebByteRun]
  | succ L ih =>
    intro b c s h
    have hc : c < b.length := by omega
    have hne : ebIsEmpty ⟨some b, c⟩ = false := by
      simp only [ebIsEmpty]
      simp
      omega
    have hstep : ebByteStep src (⟨some b, c⟩, s) = (b.getD c 0, ⟨some b, c + 1⟩, s) := by
      rw [ebByteStep]
      rw [hne]
      simp
    simp only [ebByteRun, hstep]
    rw [ih b (c + 1) s (by omega)]
    have hdl : b.drop c = b[c] :: b.drop (c + 1) := List.drop_eq_getElem_cons hc
    have hgd : b.getD c 0 = b[c] := by
      rw [List.getD_eq_getElem?_getD, List.getElem?_eq_getElem hc]
      rfl
    have harr : c + 1 + L = c + (L + 1) := by omega
    rw [hdl, List.take_succ_cons, hgd, harr]

/-- An empty buffer is transparently replaced by the freshly drawn block
before the first byte is served. -/
theorem ebByteRun_refill {σ : Type} (src : σ → List ℕ × σ) (n : ℕ) (hn : 0 < n)
    (eb : EBuf) (s : σ) (hemp : ebIsEmpty eb = true) (hS : 0 < (src s).1.length) :
    ebByteRun src n (eb, s) =
      ebByteRun src n (⟨some (src s).1, 0⟩, (src s).2) := by
  obtain ⟨m, rfl⟩ : ∃ m, n = m + 1 := ⟨n - 1, by omega⟩
  have hne : ebIsEmpty ⟨some (src s).1, 0⟩ = false := by
    show decide ((src s).1.length = 0) = false
    rw [decide_eq_false_iff_not]
    omega
  have hstep : ebByteStep src (eb, s) = ebByteStep src (⟨some (src s).1, 0⟩, (src s).2) := by
    rw [ebByteStep, ebByteStep, hemp, hne]
    simp [ebReset]
  simp only [ebByteRun, hstep]

/-- The chunked loop of `fill_bytes_with_source` serves exactly the bytes
of the one-at-a-time run, and preserves buffer well-formedness. -/
theorem ebFillGo_eq_byteRun {σ : Type} (src : σ → List ℕ × σ) (SIZE : ℕ)
    (hS : 0 < SIZE) (hsrc : ∀ s, (src s).1.length = SIZE) :
    ∀ (n fuel : ℕ) (eb : EBuf) (s : σ), n ≤ fuel → ebWF SIZE eb →
      ebFillGo src fuel eb s n = ebByteRun src n (eb, s) ∧
      ebWF SIZE (ebByteRun src n (eb, s)).2.1 := by
  intro n
  induction n using Nat.strong_induction_on with
  | _ n IH =>
  intro fuel eb s hfuel hwf
  match n, hfuel with
  | 0, _ =>
    refine ⟨?_, by simpa [ebByteRun]⟩
    cases fuel with
    | zero => simp [ebFillGo, ebByteRun]
    | succ f => simp [ebFillGo, ebByteRun]
  | m + 1, hfuel =>
    obtain ⟨f, rfl⟩ : ∃ f, fuel = f + 1 := ⟨fuel - 1, by omega⟩
    -- the refilled state is a stored block with cursor strictly inside it
    obtain ⟨b, c, s₁, hrefill, hbl, hclt, hbr⟩ :
        ∃ (b : List ℕ) (c : ℕ) (s₁ : σ),
          (if ebIsEmpty eb then
              ((ebReset eb (src s).1, (src s).2) : EBuf × σ)
            else (eb, s)) = (⟨some b, c⟩, s₁) ∧
          b.length = SIZE ∧ c < SIZE ∧
          ebByteRun src (m + 1) (eb, s) = ebByteRun src (m + 1) (⟨some b, c⟩, s₁) := by
      by_cases hemp : ebIsEmpty eb
      · refine ⟨(src s).1, 0, (src s).2, ?_, hsrc s, hS, ?_⟩
        · rw [if_pos hemp]
          simp [ebReset]
        · exact ebByteRun_refill src (m + 1) (by omega) eb s hemp (by rw [hsrc s]; omega)
      · obtain ⟨b, hb⟩ : ∃ b, eb.buffer = some b := by
          cases hbuf : eb.buffer with
          | none => exact absurd (by simp [ebIsEmpty, hbuf]) hemp
          | some b => exact ⟨b, rfl⟩
        obtain ⟨hbl, hble⟩ := hwf b hb
        have hcne : ¬b.length = eb.cursor := by
          intro hcon
          exact hemp (by simp [ebIsEmpty, hb, hcon])
        refine ⟨b, eb.cursor, s, ?_, hbl, by omega, ?_⟩
        · rw [if_neg hemp]
          rw [show eb = ⟨some b, eb.cursor⟩ from by cases eb; simp_all]
        · rw [show eb = ⟨some b, eb.cursor⟩ from by cases eb; simp_all]
    set L := min (m + 1) (SIZE - c) with hL
    have hL1 : 1 ≤ L := by omega
    have hLm : L ≤ m + 1 := by omega
    have hcL : c + L ≤ b.length := by omega
    have hfill : ebFill ⟨some b, c⟩ (m + 1) =
        some ((b.drop c).take L, ⟨some b, c + L⟩) := by
      simp only [ebFill, ebRemaining, Option.map_some']
      rw [hbl]
    have hchunklen : ((b.drop c).take L).length = L := by
      rw [List.length_take, List.length_drop, hbl]
      omega
    -- unfold one iteration of the chunked loop
    have hgo : ebFillGo src (f + 1) eb s (m + 1) =
        ((b.drop c).take L ++ (ebFillGo src f ⟨some b, c + L⟩ s₁ (m + 1 - L)).1,
          (ebFillGo src f ⟨some b, c + L⟩ s₁ (m + 1 - L)).2) := by
      rw [ebFillGo]
      rw [if_neg (by omega)]
      rw [hrefill]
      simp only [hfill, hchunklen]
    have hwf2 : ebWF SIZE (⟨some b, c + L⟩ : EBuf) := by
      intro b₂ hb₂
      have hbb : b = b₂ := by simpa using hb₂
      refine ⟨hbb ▸ hbl, ?_⟩
      show c + L ≤ SIZE
      omega
    obtain ⟨hrec, hwfrec⟩ := IH (m + 1 - L) (by omega) f ⟨some b, c + L⟩ s₁
      (by omega) hwf2
    have hsplit : m + 1 = L + (m + 1 - L) := by omega
    have hbyte := ebByteRun_add src L (m + 1 - L) (⟨some b, c⟩, s₁)
    rw [ebByteRun_buffer src L b c s₁ hcL, ← hsplit] at hbyte
    simp only at hbyte
    refine ⟨?_, ?_⟩
    · rw [hgo, hbr, hbyte, hrec]
    · rw [hbr, hbyte]
      exact hwfrec

/-! ## Claim C2 -/

/-- C2: for every block-producing source (any state machine emitting
nonempty fixed-size blocks), every starting buffer state and every way of
splitting a total request into consecutive `fill_bytes_with_source` calls,
the concatenation of the outputs — and the final buffer and source state —
equal those of one single call for the total size: across refills no byte
is repeated and none is skipped. -/
theorem c2_fill_bytes_splitting {σ : Type} (src : σ → List ℕ × σ) (SIZE : ℕ)
    (hS : 0 < SIZE) (hsrc : ∀ s, (src s).1.length = SIZE) (eb : EBuf) (s : σ)
    (hwf : ebWF SIZE eb) (ns : List ℕ) :
    ebFillMany src eb s ns = ebFillBytes src eb s ns.sum := by
  induction ns generalizing eb s with
  | nil => simp [ebFillMany, ebFillBytes, ebFillGo]
  | cons n ns ih =>
    obtain ⟨h1, hwf1⟩ := ebFillGo_eq_byteRun src SIZE hS hsrc n n eb s le_rfl hwf
    have hfirst : ebFillBytes src eb s n = ebByteRun src n (eb, s) := h1
    have h2 : ebFillBytes src eb s (n + ns.sum) = ebByteRun src (n + ns.sum) (eb, s) :=
      (ebFillGo_eq_byteRun src SIZE hS hsrc (n + ns.sum) (n + ns.sum)
        eb s le_rfl hwf).1
    have h3 : ebFillBytes src (ebByteRun src n (eb, s)).2.1
        (ebByteRun src n (eb, s)).2.2 ns.sum =
        ebByteRun src ns.sum (ebByteRun src n (eb, s)).2 :=
      (ebFillGo_eq_byteRun src SIZE hS hsrc ns.sum ns.sum
        (ebByteRun src n (eb, s)).2.1 (ebByteRun src n (eb, s)).2.2 le_rfl hwf1).1
    simp only [ebFillMany, hfirst, List.sum_cons]
    rw [ih (ebByteRun src n (eb, s)).2.1 (ebByteRun src n (eb, s)).2.2 hwf1, h3, h2,
      ebByteRun_add]

/-- C2 witness: a concrete two-byte-block source, splitting a seven-byte
request as 1 + 2 + 1 + 3. -/
theorem c2_fill_bytes_splitting_witness :
    ebFillMany (fun s => ([s % 256, (s + 1) % 256], s + 2)) ebNew 0 [1, 2, 1, 3] =
      ebFillBytes (fun s => ([s % 256, (s + 1) % 256], s + 2)) ebNew 0 7 := by
  have h := c2_fill_bytes_splitting (fun s => ([s % 256, (s + 1) % 256], s + 2)) 2
    (by norm_num) (fun s => rfl) ebNew 0 (fun b hb => by simp [ebNew] at hb) [1, 2, 1, 3]
  simpa using h

/-! ## Character sampling lemmas -/

theorem validScalar_iff (n : ℕ) :
    isValidScalar n = true ↔ n < 0x110000 ∧ ¬(0xd800 ≤ n ∧ n < 0xe000) := by
  simp [isValidScalar, surrStart, surrLen]
  omega

/-- The resolved lower character bound exists for every nonempty
well-formed bound, is a valid scalar, and is the least scalar meeting the
bound. -/
theorem resolveCharLower_spec (lo : RBound) (hlo : charBoundWF lo) (c : ℕ)
    (hc : isValidScalar c = true) (hsat : charLowerSat lo c) :
    ∃ lower, resolveCharLower lo = some lower ∧ isValidScalar lower = true ∧
      lower ≤ c ∧ ∀ v, lower ≤ v → charLowerSat lo v := by
  obtain ⟨hc1, hc2⟩ := (validScalar_iff c).mp hc
  cases lo with
  | unbounded => exact ⟨0, rfl, by decide, by omega, fun v _ => trivial⟩
  | included x => exact ⟨x, rfl, hlo, hsat, fun v hv => by show x ≤ v; omega⟩
  | excluded x =>
    obtain ⟨hx1, hx2⟩ := (validScalar_iff x).mp hlo
    have hsat' : x < c := hsat
    by_cases hxd : x = surrStart - 1
    · refine ⟨surrStart + surrLen, ?_, by decide, ?_, ?_⟩
      · simp only [resolveCharLower, if_pos hxd]
        rfl
      · simp only [surrStart, surrLen] at hxd ⊢
        omega
      · intro v hv
        show x < v
        simp only [surrStart, surrLen] at hv hxd
        omega
    · have hxd' : ¬(x = surrStart - 1) := hxd
      simp only [surrStart] at hxd'
      have hvalid : isValidScalar (x + 1) = true := by
        rw [validScalar_iff]
        omega
      refine ⟨x + 1, ?_, hvalid, by omega, fun v hv => ?_⟩
      · simp only [resolveCharLower, if_neg hxd, hvalid, if_pos]
      · show x < v
        omega

/-- The resolved upper character bound exists for every nonempty
well-formed bound, is a valid scalar, and is the greatest scalar meeting
the bound. -/
theorem resolveCharUpper_spec (hi : RBound) (hhi : charBoundWF hi) (c : ℕ)
    (hc : isValidScalar c = true) (hsat : charUpperSat hi c) :
    ∃ upper, resolveCharUpper hi = some upper ∧ isValidScalar upper = true ∧
      c ≤ upper ∧ ∀ v, v ≤ upper → charUpperSat hi v := by
  obtain ⟨hc1, hc2⟩ := (validScalar_iff c).mp hc
  cases hi with
  | unbounded => exact ⟨0x10FFFF, rfl, by decide, by omega, fun v hv => trivial⟩
  | included x => exact ⟨x, rfl, hhi, hsat, fun v hv => by show v ≤ x; omega⟩
  | excluded x =>
    obtain ⟨hx1, hx2⟩ := (validScalar_iff x).mp hhi
    have hsat' : c < x := hsat
    by_cases hxd : x = surrStart + surrLen
    · refine ⟨surrStart - 1, ?_, by decide, ?_, ?_⟩
      · simp only [resolveCharUpper, if_pos hxd]
        rfl
      · simp only [surrStart, surrLen] at hxd ⊢
        omega
      · intro v hv
        show v < x
        simp only [surrStart, surrLen] at hv hxd
        omega
    · have hxd' : ¬(x = 0xe000) := by
        simpa [surrStart, surrLen] using hxd
      have hx0 : 0 < x := by omega
      have hwrap : (x + 2 ^ 32 - 1) % 2 ^ 32 = x - 1 := by omega
      have hvalid : isValidScalar (x - 1) = true := by
        rw [validScalar_iff]
        omega
      refine ⟨x - 1, ?_, hvalid, by omega, fun v hv => ?_⟩
      · simp only [resolveCharUpper, if_neg hxd, hwrap, hvalid, if_pos]
      · show v < x
        omega

/-! ## Claim C8 -/

/-- C8: for every well-formed, semantically nonempty character bound pair
(inclusive, exclusive or unbounded on either side), `char(bounds)` never
panics, and any scalar it returns is a valid Unicode scalar value that
satisfies the requested bounds and never lies in the surrogate gap
`0xD800..0xE000`, including when the range straddles the gap. -/
theorem c8_char_surrogate_avoidance (lo hi : RBound) (hlo : charBoundWF lo)
    (hhi : charBoundWF hi) (hne : ∃ c, isValidScalar c = true ∧ charInBounds lo hi c)
    (raws : List ℕ) (hw : ∀ r ∈ raws, r < 2 ^ 32) :
    charSample lo hi raws ≠ .error () ∧
    ∀ v, charSample lo hi raws = .ok (some v) →
      isValidScalar v = true ∧ charInBounds lo hi v ∧
      ¬(surrStart ≤ v ∧ v < surrStart + surrLen) := by
  obtain ⟨c, hcval, hclo, hchi⟩ := hne
  obtain ⟨lower, hloweq, hlowval, hlowle, hlowmin⟩ :=
    resolveCharLower_spec lo hlo c hcval hclo
  obtain ⟨upper, huppeq, huppval, huppge, huppmax⟩ :=
    resolveCharUpper_spec hi hhi c hcval hchi
  obtain ⟨hlow1, hlow2⟩ := (validScalar_iff lower).mp hlowval
  obtain ⟨hupp1, hupp2⟩ := (validScalar_iff upper).mp huppval
  have hle : lower ≤ upper := le_trans hlowle huppge
  have hgaple : (if lower < surrStart ∧ surrStart ≤ upper then surrLen else 0) ≤ upper ∧
      lower ≤ upper - (if lower < surrStart ∧ surrStart ≤ upper then surrLen else 0) := by
    split
    · rename_i hg
      simp only [surrStart, surrLen] at hg hupp2 ⊢
      omega
    · omega
  set gap := if lower < surrStart ∧ surrStart ≤ upper then surrLen else 0 with hgap
  set range := upper - gap with hrange
  have hulwf : rboundWF 32 (RBound.included lower) := by
    show lower < 2 ^ 32
    omega
  have huuwf : rboundWF 32 (RBound.included range) := by
    show range < 2 ^ 32
    omega
  have hle' : resolveLowerU 32 (.included lower) ≤ resolveUpperU 32 (.included range) :=
    hgaple.2
  obtain ⟨hner, hcont, -⟩ :=
    rangeSampleU_spec 32 (by norm_num) (.included lower) (.included range)
      hulwf huuwf raws hw hle'
  have hopen : charSample lo hi raws =
      (match rangeSampleU 32 (.included lower) (.included range) raws with
        | .error () => .error ()
        | .ok none => .ok none
        | .ok (some (v, _)) =>
          let val := if surrStart ≤ v then v + gap else v
          if isValidScalar val then .ok (some val) else .error ()) := by
    simp only [charSample, hloweq, huppeq]
    rw [if_pos hle]
  cases hres : rangeSampleU 32 (.included lower) (.included range) raws with
  | error e =>
    cases e
    exact absurd hres hner
  | ok o =>
    cases o with
    | none =>
      rw [hopen, hres]
      exact ⟨by simp, fun v hv => by simp at hv⟩
    | some vr =>
      obtain ⟨v₀, rest₀⟩ := vr
      obtain ⟨hvlow, hvhigh⟩ := hcont v₀ rest₀ hres
      have hvlow' : lower ≤ v₀ := hvlow
      have hvhigh' : v₀ ≤ range := hvhigh
      have hkey : isValidScalar (if surrStart ≤ v₀ then v₀ + gap else v₀) = true ∧
          lower ≤ (if surrStart ≤ v₀ then v₀ + gap else v₀) ∧
          (if surrStart ≤ v₀ then v₀ + gap else v₀) ≤ upper ∧
          ¬(surrStart ≤ (if surrStart ≤ v₀ then v₀ + gap else v₀) ∧
            (if surrStart ≤ v₀ then v₀ + gap else v₀) < surrStart + surrLen) := by
      -- case analysis on the sampled value relative to the surrogate start
        rw [validScalar_iff]
        by_cases hv : surrStart ≤ v₀
        · rw [if_pos hv]
          rw [hgap]
          split
          · rename_i hg
            have hv2 : v₀ ≤ upper - surrLen := by
              have hre : range = upper - surrLen := by
                rw [hrange, hgap, if_pos hg]
              omega
            simp only [surrStart, surrLen] at hv hg hupp2 hv2 ⊢
            omega
          · rename_i hg
            have hv2 : v₀ ≤ upper := by
              have hre : range = upper - 0 := by
                rw [hrange, hgap, if_neg hg]
              omega
            -- gap = 0: the whole resolved range is above the surrogate block
            simp only [surrStart, surrLen] at hv hg hlow2 hupp2 ⊢
            omega
        · rw [if_neg hv]
          have hru : range ≤ upper := by
            rw [hrange]
            omega
          simp only [surrStart, surrLen] at hv ⊢
          omega
      rw [hopen, hres]
      simp only
      rw [if_pos hkey.1]
      refine ⟨by simp, fun v hv => ?_⟩
      simp only [Except.ok.injEq, Option.some.injEq] at hv
      subst hv
      exact ⟨hkey.1, ⟨hlowmin _ hkey.2.1, huppmax _ hkey.2.2.1⟩, hkey.2.2.2⟩

/-- C8 witness: a straddling inclusive range `0xD700..=0xE100`, with a raw
draw that lands the compressed sample above the surrogate start. -/
theorem c8_char_surrogate_avoidance_witness :
    isValidScalar 0xE100 = true ∧
    charInBounds (.included 0xD700) (.included 0xE100) 0xE100 ∧
    ¬(surrStart ≤ 0xE100 ∧ 0xE100 < surrStart + surrLen) := by
  have h := c8_char_surrogate_avoidance (.included 0xD700) (.included 0xE100)
    (by show isValidScalar 0xD700 = true; decide)
    (by show isValidScalar 0xE100 = true; decide)
    ⟨0xD700, by decide, le_refl _, by show (0xD700 : ℕ) ≤ 0xE100; norm_num⟩
    [2 ^ 32 - 1] (by decide)
  exact h.2 0xE100 (by decide)

/-! ## WyRand fill lemmas -/

theorem wyGenerate_fst_length (s : ℕ) : (wyGenerate s).1.length = 8 := rfl

theorem wyGenerate_snd (s : ℕ) : (wyGenerate s).2 = wyNextState s := rfl

theorem ksFlat_length (s count : ℕ) : (ksFlat s count).length = 8 * count := by
  induction count generalizing s with
  | zero => rfl
  | succ n ih =>
    rw [ksFlat, List.length_append, wyGenerate_fst_length, ih]
    omega

/-- The copy loop of `WyRand::fill` writes the first `count` generated
blocks into the front of the buffer, leaving any bytes beyond `8 * count`
untouched. -/
theorem wyFillLoop_spec (count : ℕ) : ∀ (s : ℕ) (buf : List ℕ),
    (wyFillLoop count s buf).1 =
      (ksFlat s count).take buf.length ++ buf.drop (8 * count) := by
  induction count with
  | zero =>
    intro s buf
    simp [wyFillLoop, ksFlat]
  | succ count ih =>
    intro s buf
    rw [wyFillLoop]
    simp only
    rw [ih (wyGenerate s).2 (buf.drop (min buf.length 8))]
    rw [ksFlat, List.take_append_eq_append_take, wyGenerate_fst_length]
    rw [List.length_drop, List.drop_drop]
    have htk : (wyGenerate s).1.take (min buf.length 8) =
        (wyGenerate s).1.take buf.length := by
      rw [List.take_eq_take]
      rw [wyGenerate_fst_length]
      omega
    have harg1 : buf.length - min buf.length 8 = buf.length - 8 := by omega
    rw [htk, harg1, List.append_assoc]
    by_cases hb : 8 ≤ buf.length
    · rw [min_eq_right hb]
      have hidx : 8 + 8 * count = 8 * (count + 1) := by ring
      rw [hidx]
    · have h1 : buf.drop (min buf.length 8 + 8 * count) = [] :=
        List.drop_eq_nil_of_le (by omega)
      have h2 : buf.drop (8 * (count + 1)) = [] :=
        List.drop_eq_nil_of_le (by omega)
      rw [h1, h2]

theorem wyStateAt_succ_left (s k : ℕ) : wyStateAt s (k + 1) = wyStateAt (wyNextState s) k := by
  induction k with
  | zero => rw [wyStateAt, wyStateAt, wyStateAt]
  | succ k ih =>
    rw [wyStateAt]
    rw [ih]
    rw [← wyStateAt]

/-- Closed form of the WyRand state sequence: the state step is a pure
wrapping addition. -/
theorem wyStateAt_closed (s k : ℕ) : wyStateAt s k = (s + k * wyP) % 2 ^ 64 ∨ k = 0 := by
  induction k with
  | zero => exact Or.inr rfl
  | succ k ih =>
    left
    rcases ih with h | h
    · rw [wyStateAt, h, wyNextState, Nat.mod_add_mod]
      congr 1
      ring
    · subst h
      rw [wyStateAt, wyStateAt, wyNextState]
      congr 1

/-- Byte `8 * k + j` of the concatenated keystream is byte `j` of the
`(k+1)`-st generated block. -/
theorem ksFlat_getD (j d : ℕ) (hj : j < 8) : ∀ (k s count : ℕ), k < count →
    (ksFlat s count).getD (8 * k + j) d =
      (wyGenerate (wyStateAt s k)).1.getD j d := by
  intro k
  induction k with
  | zero =>
    intro s count hk
    obtain ⟨c, rfl⟩ : ∃ c, count = c + 1 := ⟨count - 1, by omega⟩
    rw [ksFlat]
    simp only [Nat.mul_zero, Nat.zero_add]
    rw [List.getD_append _ _ _ _ (by rw [wyGenerate_fst_length]; omega)]
    rfl
  | succ k ih =>
    intro s count hk
    obtain ⟨c, rfl⟩ : ∃ c, count = c + 1 := ⟨count - 1, by omega⟩
    rw [ksFlat]
    rw [List.getD_append_right _ _ _ _ (by rw [wyGenerate_fst_length]; omega)]
    rw [wyGenerate_fst_length]
    have hidx : 8 * (k + 1) + j - 8 = 8 * k + j := by omega
    rw [hidx, ih (wyGenerate s).2 c (by omega), wyGenerate_snd, wyStateAt_succ_left]

/-! ## Claim C5 -/

/-- C5: at the destination length `L = 2^24 + 1` the chunk count
`(L as f32 / 8.0).ceil()` evaluates to `2097152` — one short of
`⌈L / 8⌉ = 2097153`, because `f32` rounds `16777217` down to `16777216` —
so `fill` leaves the final byte unwritten (it keeps its initial value `0`)
while the keystream byte at that position is `212`; the filled buffer
therefore differs from the first `L` bytes of `⌈L / 8⌉` generated blocks,
contradicting the claim. -/
theorem c5_large_fill_drops_final_byte :
    wyFillChunks (2 ^ 24 + 1) = 2097152 ∧
    (wyFill 0 (List.replicate (2 ^ 24 + 1) 0)).1.getD (2 ^ 24) 99 = 0 ∧
    (ksFlat 0 2097153).getD (2 ^ 24) 99 = 212 ∧
    (wyFill 0 (List.replicate (2 ^ 24 + 1) 0)).1 ≠
      (ksFlat 0 2097153).take (2 ^ 24 + 1) := by
  have hchunks : wyFillChunks (2 ^ 24 + 1) = 2097152 := by decide
  have hfill : (wyFill 0 (List.replicate (2 ^ 24 + 1) 0)).1.getD (2 ^ 24) 99 = 0 := by
    rw [wyFill, List.length_replicate, hchunks, wyFillLoop_spec]
    rw [List.getD_append_right _ _ _ _ (by
      rw [List.length_take, ksFlat_length, List.length_replicate]
      omega)]
    rw [List.length_take, ksFlat_length, List.length_replicate, List.drop_replicate]
    have h1 : 2 ^ 24 - min (2 ^ 24 + 1) (8 * 2097152) = 0 := by norm_num
    rw [h1]
    have h2 : (2 : ℕ) ^ 24 + 1 - 8 * 2097152 = 1 := by norm_num
    rw [h2]
    rfl
  have hks : (ksFlat 0 2097153).getD (2 ^ 24) 99 = 212 := by
    have hidx : (2 : ℕ) ^ 24 = 8 * 2097152 + 0 := by norm_num
    rw [hidx, ksFlat_getD 0 99 (by norm_num) 2097152 0 2097153 (by norm_num)]
    rcases wyStateAt_closed 0 2097152 with h | h
    · rw [h]
      decide
    · exact absurd h (by norm_num)
  have hgd : ∀ d : ℕ, ((ksFlat 0 2097153).take (2 ^ 24 + 1)).getD (2 ^ 24) d =
      (ksFlat 0 2097153).getD (2 ^ 24) d := by
    intro d
    rw [List.getD_eq_getElem?_getD, List.getD_eq_getElem?_getD, List.getElem?_take]
    rw [if_pos (by norm_num)]
  refine ⟨hchunks, hfill, hks, fun hcon => ?_⟩
  have h99 := congrArg (fun l => l.getD (2 ^ 24) 99) hcon
  simp only at h99
  rw [hfill, hgd, hks] at h99
  exact absurd h99 (by norm_num)

end Turborand
